import Mathlib

/-!
Verification of the Bos-Coster multi-scalar multiplication of
`src/ecmult_multi_impl.h` / `src/ecmult_multi.h` (peterdettman/secp256k1).

The repository's own code is the pair of heap procedures
(`secp256k1_heap_insert`, `secp256k1_heap_remove`) and the driver
`secp256k1_ecmult_multi`; those are translated here line by line.
The scalar and group arithmetic (`scalar.h`, `group.h`) is not part of the
repository sources, so it is modelled from the spec:

* a scalar is an integer modulo the group order, kept as its canonical
  unsigned representative, so a scalar is a `Nat` (validity `< N` is a
  hypothesis where it matters);
* a group element (`secp256k1_gej`) is an element of an arbitrary additive
  commutative monoid `G`, with the point at infinity as `0`.

The C `while` loops are embedded as structurally recursive functions on an
explicit fuel argument; every call site passes a fuel that is proved (not
assumed) to exceed the loop's iteration count, and the lemmas show the
result is the loop's fixed point, so the fuel is semantically inert.
`VERIFY_CHECK` failures (which abort the C program) are modelled as `none`.
-/

set_option linter.unusedSectionVars false
set_option linter.unusedVariables false

namespace EcmultMulti

/-- Modelled from the spec: `secp256k1_scalar_cmp_var` (scalar.h, not under
src/), the variable-time unsigned ordering comparison of two canonical
scalar representatives, returning a negative, zero or positive int. -/
def secp256k1_scalar_cmp_var (a b : Nat) : Int :=
  if a < b then -1 else if a = b then 0 else 1

/-- Modelled from the spec: `secp256k1_scalar_is_zero` (scalar.h, not under
src/), the zero test on a scalar. -/
def secp256k1_scalar_is_zero (a : Nat) : Bool :=
  a == 0

/-- Modelled from the spec: `secp256k1_scalar_eq` (scalar.h, not under
src/), the equality test on two scalars. -/
def secp256k1_scalar_eq (a b : Nat) : Bool :=
  a == b

/-- Modelled from the spec: `secp256k1_scalar_negate` (scalar.h, not under
src/), negation modulo the group order `N`. -/
def secp256k1_scalar_negate (N a : Nat) : Nat :=
  (N - a) % N

/-- Modelled from the spec: `secp256k1_scalar_add` (scalar.h, not under
src/), addition modulo the group order `N`. -/
def secp256k1_scalar_add (N a b : Nat) : Nat :=
  (a + b) % N

/-- Modelled from the spec: `secp256k1_scalar_shr_int` (scalar.h, not under
src/), which shifts a scalar right by `n` bits and returns the shifted-out
low bits; the result is `(shifted-out bits, new scalar value)`. -/
def secp256k1_scalar_shr_int (a n : Nat) : Nat × Nat :=
  (a % 2 ^ n, a / 2 ^ n)

variable {G : Type} [AddCommMonoid G] [DecidableEq G]

/-- Modelled from the spec: `secp256k1_gej_set_infinity` (group.h, not under
src/); the point at infinity is the identity of the group. -/
def secp256k1_gej_set_infinity : G := 0

/-- Modelled from the spec: `secp256k1_gej_is_infinity` (group.h, not under
src/), the infinity test on a group element. -/
def secp256k1_gej_is_infinity (p : G) : Bool :=
  decide (p = 0)

/-- Modelled from the spec: `secp256k1_gej_add_var` (group.h, not under
src/), variable-time addition of two group elements. -/
def secp256k1_gej_add_var (p q : G) : G := p + q

/-- Modelled from the spec: `secp256k1_gej_double_nonzero` (group.h, not
under src/), doubling of a group element; the C function requires its
operand to be non-infinity, the model is total. -/
def secp256k1_gej_double_nonzero (p : G) : G := p + p

/-! ### The heap state

The C code keeps two parallel arrays `heap_sc`, `heap_pt` of capacity 32
together with the current size `heap_n`; a Lean heap state is the list of
the `heap_n` live `(scalar, point)` pairs, the two arrays being moved in
lockstep by every operation. -/

/-- Read an entry of the heap array; out-of-range reads (which never occur
on the proved paths) return a junk entry. -/
def aget (l : List (Nat × G)) (i : Nat) : Nat × G :=
  l.getD i (0, 0)

/-- 0-based index of the parent of node `j` (the C code uses 1-based node
numbers with `parent(i) = i/2`; node `i` lives at array index `i - 1`). -/
def parentIdx (j : Nat) : Nat := (j + 1) / 2 - 1

/-- The max-heap property of the array comment in ecmult_multi_impl.h
line 9: every non-root entry's scalar is at most its parent's scalar. -/
def IsMaxHeap (l : List (Nat × G)) : Prop :=
  ∀ j < l.length, 0 < j → (aget l j).1 ≤ (aget l (parentIdx j)).1

instance (l : List (Nat × G)) : Decidable (IsMaxHeap l) := by
  unfold IsMaxHeap; infer_instance


/-! ### Heap operations (ecmult_multi_impl.h lines 9-66) -/

/-- The `while` loop of `secp256k1_heap_insert` (ecmult_multi_impl.h lines
12-16) followed by the final write of lines 17-18: the hole at 1-based
position `ins` climbs toward the root while the parent's scalar compares
below the inserted scalar, parents moving down into the hole; the inserted
pair `x` is finally written at the hole.  `fuel` bounds the number of
iterations for structural recursion; every call supplies `fuel ≥ ins`,
which is proved sufficient since `ins` at least halves each iteration. -/
def heapInsertLoop (x : Nat × G) : Nat → List (Nat × G) → Nat → List (Nat × G)
  | 0, a, ins => a.set (ins - 1) x
  | fuel + 1, a, ins =>
    if 1 < ins ∧ secp256k1_scalar_cmp_var (aget a (ins / 2 - 1)).1 x.1 < 0 then
      heapInsertLoop x fuel (a.set (ins - 1) (aget a (ins / 2 - 1))) (ins / 2)
    else a.set (ins - 1) x

/-- Translation of `secp256k1_heap_insert` (ecmult_multi_impl.h lines
10-20).  The C code sifts up over the backing array of capacity 32 with the
new slot `*n` still unwritten; the list model appends the new pair first
(the appended cell is exactly the slot the loop's first write targets). -/
def secp256k1_heap_insert (heap : List (Nat × G)) (ins_sc : Nat) (ins_pt : G) :
    List (Nat × G) :=
  heapInsertLoop (ins_sc, ins_pt) (heap.length + 1)
    (heap ++ [(ins_sc, ins_pt)]) (heap.length + 1)

/-- The `SWAP` macro of ecmult_multi_impl.h lines 22-31: exchange entries
`i` and `j` of the parallel scalar/point arrays. -/
def heapSwap (a : List (Nat × G)) (i j : Nat) : List (Nat × G) :=
  (a.set i (aget a j)).set j (aget a i)

/-- The sift-down `for (;;)` loop of `secp256k1_heap_remove`
(ecmult_multi_impl.h lines 41-63); `n` is the heap size before the final
`*n -= 1`, `rem` the 1-based position being sifted.  `fuel` bounds the
iteration count for structural recursion; callers supply `fuel ≥ n`, which
is proved sufficient since `rem` at least doubles each iteration. -/
def heapRemoveLoop : Nat → List (Nat × G) → Nat → Nat → List (Nat × G)
  | 0, a, _, _ => a
  | fuel + 1, a, n, rem =>
    if 2 * rem - 1 < n ∧
        secp256k1_scalar_cmp_var (aget a (rem - 1)).1 (aget a (2 * rem - 1)).1 < 0 then
      if 2 * rem < n ∧
          secp256k1_scalar_cmp_var (aget a (2 * rem - 1)).1 (aget a (2 * rem)).1 < 0 then
        heapRemoveLoop fuel (heapSwap a (rem - 1) (2 * rem)) n (2 * rem + 1)
      else
        heapRemoveLoop fuel (heapSwap a (rem - 1) (2 * rem - 1)) n (2 * rem)
    else
      if 2 * rem < n ∧
          secp256k1_scalar_cmp_var (aget a (rem - 1)).1 (aget a (2 * rem)).1 < 0 then
        heapRemoveLoop fuel (heapSwap a (rem - 1) (2 * rem)) n (2 * rem + 1)
      else a

/-- Translation of `secp256k1_heap_remove` (ecmult_multi_impl.h lines
32-66): `VERIFY_CHECK(*n > 0)` is modelled by returning `none` on an empty
heap; otherwise the root is returned, the last entry is copied onto the
root, the new root is sifted down (over the old size `n`, exactly as the C
loop does), and the final `*n -= 1` drops the last slot. -/
def secp256k1_heap_remove (heap : List (Nat × G)) :
    Option ((Nat × G) × List (Nat × G)) :=
  if heap.length = 0 then none
  else
    let out := aget heap 0
    let a1 := heap.set 0 (aget heap (heap.length - 1))
    let a2 := heapRemoveLoop heap.length a1 heap.length 1
    some (out, a2.dropLast)


/-! ### The reduction driver (ecmult_multi_impl.h lines 69-125 and
ecmult_multi.h line 13) -/

/-- `SECP256K1_ECMULT_MULTI_MAX_N` (ecmult_multi.h line 13). -/
def SECP256K1_ECMULT_MULTI_MAX_N : Nat := 32

/-- One iteration of the reduction `while` loop of `secp256k1_ecmult_multi`
(ecmult_multi_impl.h lines 89-108): extract the two largest terms
`(max_s, max_p)` and `(max_s1, max_p1)`, overwrite `max_p1` with
`max_p + max_p1` and reinsert it keyed by `max_s1`; if the two scalars
differ, also reinsert `max_p` keyed by `max_s + (-max_s1)`.  A
`VERIFY_CHECK` failure inside `secp256k1_heap_remove` surfaces as `none`. -/
def ecmultStep (N : Nat) (heap : List (Nat × G)) : Option (List (Nat × G)) :=
  match secp256k1_heap_remove heap with
  | none => none
  | some res1 =>
    match secp256k1_heap_remove res1.2 with
    | none => none
    | some res2 =>
      let max_s := res1.1.1
      let max_p := res1.1.2
      let max_s1 := res2.1.1
      let max_p1 := res2.1.2
      let sum_p := secp256k1_gej_add_var max_p max_p1
      let h3 := secp256k1_heap_insert res2.2 max_s1 sum_p
      if secp256k1_scalar_eq max_s max_s1 then some h3
      else
        let neg_s1 := secp256k1_scalar_negate N max_s1
        let diff := secp256k1_scalar_add N max_s neg_s1
        some (secp256k1_heap_insert h3 diff max_p)

/-- The reduction `while (heap_n > 1)` loop (lines 89-108), embedded with a
fuel bound on the iteration count; exhausted fuel with more than one term
left yields `none` (the lemmas show the caller's fuel never runs out). -/
def ecmultLoop (N : Nat) : Nat → List (Nat × G) → Option (List (Nat × G))
  | 0, heap => if 1 < heap.length then none else some heap
  | fuel + 1, heap =>
    if 1 < heap.length then
      match ecmultStep N heap with
      | none => none
      | some h' => ecmultLoop N fuel h'
    else some heap

/-- The state of the reduction loop after exactly `k` iterations (an
iteration-boundary observer for the same loop as `ecmultLoop`; it returns
the current heap when the loop has already finished). -/
def ecmultIter (N : Nat) : Nat → List (Nat × G) → Option (List (Nat × G))
  | 0, heap => some heap
  | k + 1, heap =>
    if 1 < heap.length then
      match ecmultStep N heap with
      | none => none
      | some h' => ecmultIter N k h'
    else some heap

/-- The body of the filter phase of `secp256k1_ecmult_multi` (lines 79-81):
insert the pair when its scalar is non-zero, otherwise skip it. -/
def buildHeapStep (h : List (Nat × G)) (t : Nat × G) : List (Nat × G) :=
  if secp256k1_scalar_is_zero t.1 then h else secp256k1_heap_insert h t.1 t.2

/-- The filter phase of `secp256k1_ecmult_multi` (lines 78-82): insert every
pair whose scalar is non-zero into the (initially empty) heap. -/
def buildHeap (terms : List (Nat × G)) : List (Nat × G) :=
  terms.foldl buildHeapStep []

/-- The finishing binary ladder of `secp256k1_ecmult_multi` (lines 117-123):
while the remaining scalar is non-zero, shift out its low bit, add the point
into `r` when the bit is one, then double the point in place.  Embedded with
fuel (callers pass the scalar itself, which bounds the iteration count). -/
def ecmultLadder : Nat → Nat → G → G → G
  | 0, _, _, r => r
  | fuel + 1, s, p, r =>
    if secp256k1_scalar_is_zero s then r
    else
      let sb := secp256k1_scalar_shr_int s 1
      let r' := if sb.1 = 1 then secp256k1_gej_add_var r p else r
      ecmultLadder fuel sb.2 (secp256k1_gej_double_nonzero p) r'

/-- The finishing ladder again, additionally recording every point passed to
`secp256k1_gej_double_nonzero` (one per loop iteration, in order); the first
component agrees with `ecmultLadder`. -/
def ecmultLadderTrace : Nat → Nat → G → G → List G → G × List G
  | 0, _, _, r, ds => (r, ds)
  | fuel + 1, s, p, r, ds =>
    if secp256k1_scalar_is_zero s then (r, ds)
    else
      let sb := secp256k1_scalar_shr_int s 1
      let r' := if sb.1 = 1 then secp256k1_gej_add_var r p else r
      ecmultLadderTrace fuel sb.2 (secp256k1_gej_double_nonzero p) r' (ds ++ [p])

/-- Sum of the scalars stored in a heap (the fuel budget of the loop). -/
def ssum (l : List (Nat × G)) : Nat := (l.map fun t => t.1).sum

/-- Translation of `secp256k1_ecmult_multi` (ecmult_multi_impl.h lines
70-125).  The two `VERIFY_CHECK`s on entry (`n <= MAX_N`) and after the loop
(`heap_n == 1`, non-zero scalar) are modelled as `none` on violation; the
scalar/point input arrays are the zipped lists. -/
def secp256k1_ecmult_multi (N : Nat) (sc : List Nat) (pt : List G) : Option G :=
  if sc.length ≤ SECP256K1_ECMULT_MULTI_MAX_N then
    let heap := buildHeap (sc.zip pt)
    if heap.length = 0 then some secp256k1_gej_set_infinity
    else
      match ecmultLoop N (ssum heap + 1) heap with
      | none => none
      | some h =>
        if h.length = 1 ∧ secp256k1_scalar_is_zero (aget h 0).1 = false then
          if secp256k1_gej_is_infinity (aget h 0).2 then some secp256k1_gej_set_infinity
          else
            some (ecmultLadder (aget h 0).1 (aget h 0).1 (aget h 0).2
              secp256k1_gej_set_infinity)
        else none
  else none

/-! ### Weighted sums and heap-state validity -/

/-- The group element a heap state stands for: the sum of its terms, each
point weighted by its scalar. -/
def wsum (l : List (Nat × G)) : G := (l.map fun t => t.1 • t.2).sum

/-- The largest scalar stored in the heap (0 when empty). -/
def heapMaxSc (l : List (Nat × G)) : Nat := (l.map fun t => t.1).foldr max 0

/-- A valid reduction state: the max-heap property holds and every stored
scalar is a non-zero canonical representative (`0 < s < N`). -/
def HeapOK (N : Nat) (l : List (Nat × G)) : Prop :=
  IsMaxHeap l ∧ ∀ t ∈ l, 0 < t.1 ∧ t.1 < N

instance (N : Nat) (l : List (Nat × G)) : Decidable (HeapOK N l) := by
  unfold HeapOK; infer_instance

/-- Reference scalar multiplication: `n` independent additions of `p`. -/
def naiveScalarMul : Nat → G → G
  | 0, _ => 0
  | n + 1, p => p + naiveScalarMul n p


/-! ### Heap operation scripts (for the insert/extract-sequence contract) -/

/-- A script of heap operations: arbitrary interleavings of inserts and
removals, as exercised by the driver and by the heap contract. -/
inductive HeapOp (G : Type) where
  | ins : Nat → G → HeapOp G
  | rem : HeapOp G

/-- Run a script from a given heap state, collecting the removed terms in
order; removal from an empty heap surfaces the C assertion failure as
`none`. -/
def runHeapOpsFrom : List (Nat × G) → List (Nat × G) → List (HeapOp G) →
    Option (List (Nat × G) × List (Nat × G))
  | st, outs, [] => some (st, outs)
  | st, outs, HeapOp.ins s p :: ops =>
    runHeapOpsFrom (secp256k1_heap_insert st s p) outs ops
  | st, outs, HeapOp.rem :: ops =>
    match secp256k1_heap_remove st with
    | none => none
    | some r => runHeapOpsFrom r.2 (outs ++ [r.1]) ops

/-- Run a script from the empty heap. -/
def runHeapOps (ops : List (HeapOp G)) : Option (List (Nat × G) × List (Nat × G)) :=
  runHeapOpsFrom [] [] ops

/-- The multiset of terms a script inserts, as a list in script order. -/
def insertedTerms : List (HeapOp G) → List (Nat × G)
  | [] => []
  | HeapOp.ins s p :: ops => (s, p) :: insertedTerms ops
  | HeapOp.rem :: ops => insertedTerms ops


/-! ### Basic access lemmas -/

theorem aget_eq_getElem (l : List (Nat × G)) (i : Nat) (h : i < l.length) :
    aget l i = l[i] := by
  simp [aget, List.getD_eq_getElem?_getD, List.getElem?_eq_getElem h]

theorem aget_set_self (l : List (Nat × G)) (i : Nat) (v : Nat × G)
    (h : i < l.length) : aget (l.set i v) i = v := by
  rw [aget_eq_getElem _ _ (by simpa using h)]
  simp [List.getElem_set_self]

theorem aget_set_ne (l : List (Nat × G)) (i j : Nat) (v : Nat × G)
    (h : i ≠ j) : aget (l.set i v) j = aget l j := by
  simp [aget, List.getD_eq_getElem?_getD, List.getElem?_set_ne h]

theorem aget_append_left (l l' : List (Nat × G)) (i : Nat)
    (h : i < l.length) :
    aget (l ++ l') i = aget l i := by
  simp [aget, List.getD_eq_getElem?_getD, List.getElem?_append_left h]

theorem aget_mem (l : List (Nat × G)) (i : Nat) (h : i < l.length) :
    aget l i ∈ l := by
  rw [aget_eq_getElem _ _ h]; exact List.getElem_mem h

theorem mem_of_index_aget (l : List (Nat × G)) (t : Nat × G) (ht : t ∈ l) :
    ∃ i, i < l.length ∧ aget l i = t := by
  rcases List.mem_iff_getElem.mp ht with ⟨i, hi, hv⟩
  exact ⟨i, hi, by rw [aget_eq_getElem _ _ hi, hv]⟩

theorem mset_set (l : List (Nat × G)) (i : Nat) (v : Nat × G)
    (h : i < l.length) :
    (aget l i) ::ₘ (↑(l.set i v) : Multiset (Nat × G)) = v ::ₘ (↑l : Multiset (Nat × G)) := by
  induction l generalizing i with
  | nil => simp at h
  | cons a t ih =>
    cases i with
    | zero =>
      have h0 : aget (a :: t) 0 = a := rfl
      have hs : (a :: t).set 0 v = v :: t := rfl
      rw [h0, hs, ← Multiset.cons_coe, ← Multiset.cons_coe]
      exact Multiset.cons_swap a v (↑t)
    | succ n =>
      have hn : n < t.length := by simpa using h
      have hag : aget (a :: t) (n + 1) = aget t n := by simp [aget, List.getD]
      have hset : ((a :: t).set (n + 1) v) = a :: t.set n v := rfl
      rw [hag, hset, ← Multiset.cons_coe, ← Multiset.cons_coe,
        Multiset.cons_swap, Multiset.cons_swap v a]
      exact congrArg (Multiset.cons a) (ih n hn)

theorem aget_dropLast (l : List (Nat × G)) (i : Nat)
    (h : i + 1 < l.length) :
    aget l.dropLast i = aget l i := by
  have hlen : i < l.dropLast.length := by
    simpa [List.length_dropLast] using Nat.lt_pred_of_succ_lt h
  rw [aget_eq_getElem _ _ hlen, aget_eq_getElem _ _ (by omega)]
  exact List.getElem_dropLast l i hlen

theorem mset_dropLast (l : List (Nat × G)) (h : l ≠ []) :
    (↑l : Multiset (Nat × G)) = aget l (l.length - 1) ::ₘ (↑l.dropLast : Multiset (Nat × G)) := by
  have hpos : 0 < l.length := List.length_pos.mpr h
  have hag : aget l (l.length - 1) = l.getLast h := by
    rw [aget_eq_getElem _ _ (by omega)]
    exact (@List.getLast_eq_getElem _ l h).symm
  conv_lhs => rw [← List.dropLast_concat_getLast h]
  rw [hag, Multiset.cons_coe]
  exact Multiset.coe_eq_coe.mpr (List.perm_append_singleton _ _)


/-! ### Small arithmetic and swap lemmas -/

theorem cmp_var_lt_iff (a b : Nat) : secp256k1_scalar_cmp_var a b < 0 ↔ a < b := by
  simp only [secp256k1_scalar_cmp_var]
  split_ifs with h1 h2 <;> constructor <;> intro h <;> omega

theorem parentIdx_lt (j : Nat) (h : 0 < j) : parentIdx j < j := by
  unfold parentIdx; omega

theorem parentIdx_children (j R : Nat) (h : 0 < j) :
    parentIdx j = R ↔ j = 2 * R + 1 ∨ j = 2 * R + 2 := by
  unfold parentIdx; omega

theorem length_heapSwap (a : List (Nat × G)) (i j : Nat) :
    (heapSwap a i j).length = a.length := by
  simp [heapSwap]

theorem aget_swap_fst (a : List (Nat × G)) (i j : Nat) (hij : i ≠ j)
    (hi : i < a.length) : aget (heapSwap a i j) i = aget a j := by
  rw [heapSwap, aget_set_ne _ _ _ _ (Ne.symm hij), aget_set_self _ _ _ hi]

theorem aget_swap_snd (a : List (Nat × G)) (i j : Nat)
    (hj : j < a.length) : aget (heapSwap a i j) j = aget a i := by
  rw [heapSwap, aget_set_self]
  simpa using hj

theorem aget_swap_other (a : List (Nat × G)) (i j k : Nat) (hki : k ≠ i)
    (hkj : k ≠ j) : aget (heapSwap a i j) k = aget a k := by
  rw [heapSwap, aget_set_ne _ _ _ _ (Ne.symm hkj), aget_set_ne _ _ _ _ (Ne.symm hki)]

theorem mset_heapSwap (a : List (Nat × G)) (i j : Nat) (hij : i ≠ j)
    (hi : i < a.length) (hj : j < a.length) :
    (↑(heapSwap a i j) : Multiset (Nat × G)) = ↑a := by
  have hbj : j < (a.set i (aget a j)).length := by simpa using hj
  have m1 : aget a i ::ₘ (↑(a.set i (aget a j)) : Multiset (Nat × G)) = aget a j ::ₘ ↑a :=
    mset_set a i (aget a j) hi
  have hbv : aget (a.set i (aget a j)) j = aget a j := aget_set_ne _ _ _ _ hij
  have m2 : aget (a.set i (aget a j)) j ::ₘ (↑(heapSwap a i j) : Multiset (Nat × G)) =
      aget a i ::ₘ ↑(a.set i (aget a j)) := mset_set _ j (aget a i) hbj
  rw [hbv] at m2
  have : aget a j ::ₘ (↑(heapSwap a i j) : Multiset (Nat × G)) = aget a j ::ₘ ↑a := by
    rw [m2, m1]
  exact (Multiset.cons_inj_right _).mp this

theorem isMaxHeap_le_root (l : List (Nat × G)) (hH : IsMaxHeap l) :
    ∀ i < l.length, (aget l i).1 ≤ (aget l 0).1 := by
  intro i
  induction i using Nat.strong_induction_on with
  | _ i ih =>
    intro hi
    rcases Nat.eq_zero_or_pos i with h0 | h0
    · subst h0; exact le_refl _
    · exact le_trans (hH i hi h0)
        (ih (parentIdx i) (parentIdx_lt i h0) (lt_trans (parentIdx_lt i h0) hi))

theorem isMaxHeap_mem_le_root (l : List (Nat × G)) (hH : IsMaxHeap l)
    (t : Nat × G) (ht : t ∈ l) : t.1 ≤ (aget l 0).1 := by
  rcases mem_of_index_aget l t ht with ⟨i, hi, hv⟩
  rw [← hv]
  exact isMaxHeap_le_root l hH i hi

/-! ### Correctness of the sift-up insertion

The loop invariant: the array is a max-heap away from the hole `ins - 1`
(clause A), and the children of the hole are bounded both by the inserted
scalar and by the hole's parent's scalar (clause B).  The multiset clause
says the array minus the hole entry plus `x` is the final content. -/

theorem heapInsertLoop_spec (x : Nat × G) (fuel : Nat) :
    ∀ (a : List (Nat × G)) (ins : Nat), ins ≤ fuel → 1 ≤ ins → ins ≤ a.length →
    (∀ j, j < a.length → 0 < j → j ≠ ins - 1 → parentIdx j ≠ ins - 1 →
      (aget a j).1 ≤ (aget a (parentIdx j)).1) →
    (∀ j, j < a.length → 0 < j → parentIdx j = ins - 1 →
      (aget a j).1 ≤ x.1 ∧ (1 < ins → (aget a j).1 ≤ (aget a (parentIdx (ins - 1))).1)) →
    (heapInsertLoop x fuel a ins).length = a.length ∧
    IsMaxHeap (heapInsertLoop x fuel a ins) ∧
    aget a (ins - 1) ::ₘ (↑(heapInsertLoop x fuel a ins) : Multiset (Nat × G)) =
      x ::ₘ (↑a : Multiset (Nat × G)) := by
  induction fuel with
  | zero =>
    intro a ins hfuel hins1 _ _ _
    exfalso; omega
  | succ fuel ih =>
    intro a ins hfuel hins1 hinslen hA hB
    simp only [heapInsertLoop]
    split_ifs with hg
    · -- the parent is smaller: it moves down into the hole, the hole climbs
      obtain ⟨hi2, hcmp⟩ := hg
      have hlt : (aget a (ins / 2 - 1)).1 < x.1 := (cmp_var_lt_iff _ _).mp hcmp
      have hHlt : ins - 1 < a.length := by omega
      have hPlt : ins / 2 - 1 < a.length := by omega
      have hPH : ins / 2 - 1 ≠ ins - 1 := by omega
      have hparH : parentIdx (ins - 1) = ins / 2 - 1 := by unfold parentIdx; omega
      have hlen' : (a.set (ins - 1) (aget a (ins / 2 - 1))).length = a.length := by simp
      have hres := ih (a.set (ins - 1) (aget a (ins / 2 - 1))) (ins / 2)
        (by omega) (by omega) (by omega)
        (by
          intro j hj hj0 hjP hjpP
          rw [hlen'] at hj
          by_cases hjH : j = ins - 1
          · exfalso; apply hjpP; rw [hjH]; unfold parentIdx; omega
          · by_cases hpjH : parentIdx j = ins - 1
            · rw [aget_set_ne _ _ _ _ (fun h => hjH h.symm), hpjH,
                aget_set_self _ _ _ hHlt]
              have hb := (hB j hj hj0 hpjH).2 hi2
              rwa [hparH] at hb
            · rw [aget_set_ne _ _ _ _ (fun h => hjH h.symm),
                aget_set_ne _ _ _ _ (fun h => hpjH h.symm)]
              exact hA j hj hj0 hjH hpjH)
        (by
          intro j hj hj0 hpj
          rw [hlen'] at hj
          have hpj' : parentIdx j ≠ ins - 1 := by rw [hpj]; omega
          have hparP : aget (a.set (ins - 1) (aget a (ins / 2 - 1))) (parentIdx (ins / 2 - 1)) =
              aget a (parentIdx (ins / 2 - 1)) := by
            refine aget_set_ne _ _ _ _ ?_
            unfold parentIdx; omega
          by_cases hjH : j = ins - 1
          · constructor
            · rw [hjH, aget_set_self _ _ _ hHlt]; exact le_of_lt hlt
            · intro hp2
              rw [hjH, aget_set_self _ _ _ hHlt, hparP]
              exact hA (ins / 2 - 1) hPlt (by omega) (by omega) (by unfold parentIdx; omega)
          · have hval : aget (a.set (ins - 1) (aget a (ins / 2 - 1))) j = aget a j :=
              aget_set_ne _ _ _ _ (fun h => hjH h.symm)
            have hAj : (aget a j).1 ≤ (aget a (ins / 2 - 1)).1 := by
              have := hA j hj hj0 hjH hpj'
              rwa [hpj] at this
            constructor
            · rw [hval]; exact le_trans hAj (le_of_lt hlt)
            · intro hp2
              rw [hval, hparP]
              exact le_trans hAj
                (hA (ins / 2 - 1) hPlt (by omega) (by omega) (by unfold parentIdx; omega)))
      refine ⟨by rw [hres.1, hlen'], hres.2.1, ?_⟩
      -- multiset bookkeeping: the recursive call's hole is the old parent slot
      have hagP : aget (a.set (ins - 1) (aget a (ins / 2 - 1))) (ins / 2 - 1) =
          aget a (ins / 2 - 1) := aget_set_ne _ _ _ _ (fun h => hPH h.symm)
      have hmm := hres.2.2
      rw [show ins / 2 - 1 = ins / 2 - 1 from rfl, hagP] at hmm
      have hms : aget a (ins - 1) ::ₘ (↑(a.set (ins - 1) (aget a (ins / 2 - 1))) : Multiset (Nat × G)) =
          aget a (ins / 2 - 1) ::ₘ (↑a : Multiset (Nat × G)) :=
        mset_set a (ins - 1) (aget a (ins / 2 - 1)) hHlt
      have e1 := congrArg (Multiset.cons (aget a (ins - 1))) hmm
      have e2 : aget a (ins - 1) ::ₘ (x ::ₘ (↑(a.set (ins - 1) (aget a (ins / 2 - 1))) : Multiset (Nat × G))) =
          x ::ₘ (aget a (ins - 1) ::ₘ (↑(a.set (ins - 1) (aget a (ins / 2 - 1))) : Multiset (Nat × G))) :=
        Multiset.cons_swap _ _ _
      have e3 := congrArg (Multiset.cons x) hms
      have e4 : x ::ₘ (aget a (ins / 2 - 1) ::ₘ (↑a : Multiset (Nat × G))) =
          aget a (ins / 2 - 1) ::ₘ (x ::ₘ (↑a : Multiset (Nat × G))) :=
        Multiset.cons_swap _ _ _
      have e5 : aget a (ins - 1) ::ₘ (aget a (ins / 2 - 1) ::ₘ
            (↑(heapInsertLoop x fuel (a.set (ins - 1) (aget a (ins / 2 - 1))) (ins / 2)) : Multiset (Nat × G))) =
          aget a (ins / 2 - 1) ::ₘ (aget a (ins - 1) ::ₘ
            (↑(heapInsertLoop x fuel (a.set (ins - 1) (aget a (ins / 2 - 1))) (ins / 2)) : Multiset (Nat × G))) :=
        Multiset.cons_swap _ _ _
      exact (Multiset.cons_inj_right _).mp
        (e5.symm.trans (e1.trans (e2.trans (e3.trans e4))))
    · -- the parent is no smaller (or the hole is the root): write x and stop
      have hHlt : ins - 1 < a.length := by omega
      refine ⟨by simp, ?_, mset_set a (ins - 1) x hHlt⟩
      intro j hj hj0
      rw [List.length_set] at hj
      by_cases hjH : j = ins - 1
      · have hi2 : 1 < ins := by omega
        have hparH : parentIdx (ins - 1) = ins / 2 - 1 := by unfold parentIdx; omega
        have hge : ¬ secp256k1_scalar_cmp_var (aget a (ins / 2 - 1)).1 x.1 < 0 :=
          fun hc => hg ⟨hi2, hc⟩
        rw [cmp_var_lt_iff] at hge
        rw [hjH, aget_set_self _ _ _ hHlt, hparH,
          aget_set_ne _ _ _ _ (by omega : ins - 1 ≠ ins / 2 - 1)]
        omega
      · by_cases hpjH : parentIdx j = ins - 1
        · rw [aget_set_ne _ _ _ _ (fun h => hjH h.symm), hpjH,
            aget_set_self _ _ _ hHlt]
          exact (hB j hj hj0 hpjH).1
        · rw [aget_set_ne _ _ _ _ (fun h => hjH h.symm),
            aget_set_ne _ _ _ _ (fun h => hpjH h.symm)]
          exact hA j hj hj0 hjH hpjH

theorem aget_append_length (l : List (Nat × G)) (v : Nat × G) :
    aget (l ++ [v]) l.length = v := by
  rw [aget_eq_getElem _ _ (by simp)]
  simp

/-- `secp256k1_heap_insert` on a max-heap: the size grows by one, the
max-heap property is preserved, and the stored multiset gains exactly the
inserted pair. -/
theorem heap_insert_spec (heap : List (Nat × G)) (s : Nat) (p : G)
    (hH : IsMaxHeap heap) :
    (secp256k1_heap_insert heap s p).length = heap.length + 1 ∧
    IsMaxHeap (secp256k1_heap_insert heap s p) ∧
    (↑(secp256k1_heap_insert heap s p) : Multiset (Nat × G)) =
      (s, p) ::ₘ (↑heap : Multiset (Nat × G)) := by
  have hmain := heapInsertLoop_spec (s, p) (heap.length + 1) (heap ++ [(s, p)])
    (heap.length + 1) (le_refl _) (by omega) (by simp)
    (by
      intro j hj hj0 hjH hpjH
      simp only [List.length_append, List.length_cons, List.length_nil] at hj
      have hjlen : j < heap.length := by omega
      have hplen : parentIdx j < heap.length := lt_trans (parentIdx_lt j hj0) hjlen
      rw [aget_append_left _ _ _ hjlen, aget_append_left _ _ _ hplen]
      exact hH j hjlen hj0)
    (by
      intro j hj hj0 hpj
      exfalso
      rw [List.length_append] at hj
      unfold parentIdx at hpj
      simp at hj
      omega)
  have hag : aget (heap ++ [(s, p)]) (heap.length + 1 - 1) = (s, p) := by
    simpa using aget_append_length heap (s, p)
  have happ : (↑(heap ++ [(s, p)]) : Multiset (Nat × G)) =
      (s, p) ::ₘ (↑heap : Multiset (Nat × G)) := by
    rw [Multiset.cons_coe]
    exact Multiset.coe_eq_coe.mpr (List.perm_append_singleton _ _)
  unfold secp256k1_heap_insert
  refine ⟨?_, hmain.2.1, ?_⟩
  · rw [hmain.1]; simp
  · have := hmain.2.2
    rw [hag] at this
    have hr := (Multiset.cons_inj_right _).mp this
    rw [hr, happ]

/-! ### Correctness of the sift-down removal

The loop invariant for `heapRemoveLoop`, sifting position `rem` (1-based)
downward: the array satisfies the heap property except possibly between the
current node and its children (clause I), the current node's children are
bounded by the current node's parent (clause II), and both the current node
and the slot `n - 1` hold the pair `v` that was copied from the last slot
onto the root (clause III; this tracks that the stale duplicate at `n - 1`
is never moved or overwritten, so dropping it afterwards is sound). -/

/-- One swap step of the sift-down: if the current node `rem` swaps with a
child at index `c` whose scalar strictly exceeds the current node's, and the
sibling's scalar does not exceed that child's, all loop invariants carry to
the swapped array with the sift continuing at `c` (1-based `c + 1`). -/
theorem heapRemoveLoop_swapStep (n : Nat) (v : Nat × G) (fuel : Nat)
    (ih : ∀ (a : List (Nat × G)) (rem : Nat),
      a.length = n → 1 ≤ rem → rem - 1 < n → n - rem < fuel →
      (∀ j, j < n → 0 < j → parentIdx j ≠ rem - 1 →
        (aget a j).1 ≤ (aget a (parentIdx j)).1) →
      (0 < rem - 1 → ∀ j, j < n → 0 < j → parentIdx j = rem - 1 →
        (aget a j).1 ≤ (aget a (parentIdx (rem - 1))).1) →
      aget a (rem - 1) = v → aget a (n - 1) = v →
      (heapRemoveLoop fuel a n rem).length = n ∧
      (↑(heapRemoveLoop fuel a n rem) : Multiset (Nat × G)) = ↑a ∧
      (∀ j, j < n → 0 < j →
        (aget (heapRemoveLoop fuel a n rem) j).1 ≤
          (aget (heapRemoveLoop fuel a n rem) (parentIdx j)).1) ∧
      aget (heapRemoveLoop fuel a n rem) (n - 1) = v)
    (a : List (Nat × G)) (rem c : Nat)
    (hlen : a.length = n) (hrem1 : 1 ≤ rem) (hRn : rem - 1 < n)
    (hfuel : n - rem < fuel + 1)
    (hc : c = 2 * rem - 1 ∨ c = 2 * rem) (hcn : c < n)
    (hI : ∀ j, j < n → 0 < j → parentIdx j ≠ rem - 1 →
      (aget a j).1 ≤ (aget a (parentIdx j)).1)
    (hII : 0 < rem - 1 → ∀ j, j < n → 0 < j → parentIdx j = rem - 1 →
      (aget a j).1 ≤ (aget a (parentIdx (rem - 1))).1)
    (hvC : aget a (rem - 1) = v) (hvN : aget a (n - 1) = v)
    (hvc : (aget a (rem - 1)).1 < (aget a c).1)
    (hsib : ∀ o, (o = 2 * rem - 1 ∨ o = 2 * rem) → o ≠ c → o < n →
      (aget a o).1 ≤ (aget a c).1) :
    (heapRemoveLoop fuel (heapSwap a (rem - 1) c) n (c + 1)).length = n ∧
    (↑(heapRemoveLoop fuel (heapSwap a (rem - 1) c) n (c + 1)) : Multiset (Nat × G)) = ↑a ∧
    (∀ j, j < n → 0 < j →
      (aget (heapRemoveLoop fuel (heapSwap a (rem - 1) c) n (c + 1)) j).1 ≤
        (aget (heapRemoveLoop fuel (heapSwap a (rem - 1) c) n (c + 1)) (parentIdx j)).1) ∧
    aget (heapRemoveLoop fuel (heapSwap a (rem - 1) c) n (c + 1)) (n - 1) = v := by
  have hRc : rem - 1 < c := by omega
  have hparc : parentIdx c = rem - 1 := by
    rcases hc with h | h <;> subst h <;> unfold parentIdx <;> omega
  have hvc' : v.1 < (aget a c).1 := by rw [← hvC]; exact hvc
  have hcn1 : c ≠ n - 1 := by
    intro h
    rw [h, hvN] at hvc'
    exact lt_irrefl _ hvc'
  have hRn1 : rem - 1 ≠ n - 1 := by omega
  have hswR : aget (heapSwap a (rem - 1) c) (rem - 1) = aget a c :=
    aget_swap_fst a (rem - 1) c (by omega) (by omega)
  have hswc : aget (heapSwap a (rem - 1) c) c = v := by
    rw [aget_swap_snd a (rem - 1) c (by omega)]; exact hvC
  have hres := ih (heapSwap a (rem - 1) c) (c + 1)
    (by rw [length_heapSwap]; exact hlen) (by omega)
    (by simpa using hcn) (by omega)
    (by
      intro j hj hj0 hpj
      simp only [Nat.add_sub_cancel] at hpj
      by_cases hjR : j = rem - 1
      · subst hjR
        have hR0 : 0 < rem - 1 := hj0
        have hpR := parentIdx_lt (rem - 1) hR0
        rw [hswR, aget_swap_other a (rem - 1) c (parentIdx (rem - 1))
          (by omega) (by omega)]
        exact hII hR0 c hcn (by omega) hparc
      · by_cases hjc : j = c
        · subst hjc
          rw [hswc, hparc, hswR]
          exact le_of_lt hvc'
        · by_cases hpjR : parentIdx j = rem - 1
          · have hjo : j = 2 * rem - 1 ∨ j = 2 * rem := by
              have := (parentIdx_children j (rem - 1) hj0).mp hpjR
              omega
            rw [aget_swap_other a (rem - 1) c j hjR hjc, hpjR, hswR]
            exact hsib j hjo hjc hj
          · rw [aget_swap_other a (rem - 1) c j hjR hjc,
              aget_swap_other a (rem - 1) c (parentIdx j) hpjR hpj]
            exact hI j hj hj0 hpjR)
    (by
      intro _ j hj hj0 hpj
      simp only [Nat.add_sub_cancel] at hpj ⊢
      have hjgt : c < j := hpj ▸ parentIdx_lt j hj0
      rw [aget_swap_other a (rem - 1) c j (by omega) (by omega), hparc, hswR]
      have := hI j hj hj0 (by rw [hpj]; omega)
      rwa [hpj] at this)
    (by simpa using hswc)
    (by
      rw [aget_swap_other a (rem - 1) c (n - 1)
        (fun h => hRn1 h.symm) (fun h => hcn1 h.symm)]
      exact hvN)
  refine ⟨hres.1, ?_, hres.2.2.1, hres.2.2.2⟩
  rw [hres.2.1]
  exact mset_heapSwap a (rem - 1) c (by omega) (by omega) (by omega)

theorem heapRemoveLoop_spec (n : Nat) (v : Nat × G) (fuel : Nat) :
    ∀ (a : List (Nat × G)) (rem : Nat),
    a.length = n → 1 ≤ rem → rem - 1 < n → n - rem < fuel →
    (∀ j, j < n → 0 < j → parentIdx j ≠ rem - 1 →
      (aget a j).1 ≤ (aget a (parentIdx j)).1) →
    (0 < rem - 1 → ∀ j, j < n → 0 < j → parentIdx j = rem - 1 →
      (aget a j).1 ≤ (aget a (parentIdx (rem - 1))).1) →
    aget a (rem - 1) = v → aget a (n - 1) = v →
    (heapRemoveLoop fuel a n rem).length = n ∧
    (↑(heapRemoveLoop fuel a n rem) : Multiset (Nat × G)) = ↑a ∧
    (∀ j, j < n → 0 < j →
      (aget (heapRemoveLoop fuel a n rem) j).1 ≤
        (aget (heapRemoveLoop fuel a n rem) (parentIdx j)).1) ∧
    aget (heapRemoveLoop fuel a n rem) (n - 1) = v := by
  induction fuel with
  | zero =>
    intro a rem _ _ _ hfuel _ _ _ _
    exfalso; omega
  | succ fuel ih =>
    intro a rem hlen hrem1 hRn hfuel hI hII hvC hvN
    simp only [heapRemoveLoop]
    split_ifs with hg1 hg2 hg3
    · -- parent < lchild and lchild < rchild: swap with the right child
      obtain ⟨hlcn, hcl⟩ := hg1
      obtain ⟨hrcn, hlr⟩ := hg2
      rw [cmp_var_lt_iff] at hcl hlr
      exact heapRemoveLoop_swapStep n v fuel ih a rem (2 * rem) hlen hrem1 hRn
        hfuel (Or.inr rfl) hrcn hI hII hvC hvN (lt_trans hcl hlr)
        (by
          intro o ho hoc hon
          rcases ho with h | h
          · subst h; exact le_of_lt hlr
          · exact absurd h hoc)
    · -- parent < lchild and lchild >= rchild: swap with the left child
      obtain ⟨hlcn, hcl⟩ := hg1
      rw [cmp_var_lt_iff] at hcl
      have hstep := heapRemoveLoop_swapStep n v fuel ih a rem (2 * rem - 1) hlen
        hrem1 hRn hfuel (Or.inl rfl) hlcn hI hII hvC hvN hcl
        (by
          intro o ho hoc hon
          rcases ho with h | h
          · exact absurd h hoc
          · subst h
            have : ¬ secp256k1_scalar_cmp_var (aget a (2 * rem - 1)).1
                (aget a (2 * rem)).1 < 0 := fun hcc => hg2 ⟨hon, hcc⟩
            rw [cmp_var_lt_iff] at this
            omega)
      have h21 : 2 * rem - 1 + 1 = 2 * rem := by omega
      rw [h21] at hstep
      exact hstep
    · -- parent >= lchild but parent < rchild: swap with the right child
      obtain ⟨hrcn, hcr⟩ := hg3
      rw [cmp_var_lt_iff] at hcr
      exact heapRemoveLoop_swapStep n v fuel ih a rem (2 * rem) hlen hrem1 hRn
        hfuel (Or.inr rfl) hrcn hI hII hvC hvN hcr
        (by
          intro o ho hoc hon
          rcases ho with h | h
          · subst h
            have : ¬ secp256k1_scalar_cmp_var (aget a (rem - 1)).1
                (aget a (2 * rem - 1)).1 < 0 := fun hcc => hg1 ⟨hon, hcc⟩
            rw [cmp_var_lt_iff] at this
            omega
          · exact absurd h hoc)
    · -- neither child exceeds the current node: the loop exits, and the
      -- whole range `n` now satisfies the heap property
      refine ⟨hlen, rfl, ?_, hvN⟩
      intro j hj hj0
      by_cases hpjR : parentIdx j = rem - 1
      · have hjo : j = 2 * rem - 1 ∨ j = 2 * rem := by
          have := (parentIdx_children j (rem - 1) hj0).mp hpjR
          omega
        rw [hpjR]
        rcases hjo with h | h
        · subst h
          have : ¬ secp256k1_scalar_cmp_var (aget a (rem - 1)).1
              (aget a (2 * rem - 1)).1 < 0 := fun hcc => hg1 ⟨hj, hcc⟩
          rw [cmp_var_lt_iff] at this
          omega
        · subst h
          have : ¬ secp256k1_scalar_cmp_var (aget a (rem - 1)).1
              (aget a (2 * rem)).1 < 0 := fun hcc => hg3 ⟨hj, hcc⟩
          rw [cmp_var_lt_iff] at this
          omega
      · exact hI j hj hj0 hpjR

/-- `secp256k1_heap_remove` on a non-empty max-heap: it returns the root
(which carries a maximal scalar, by `isMaxHeap_mem_le_root`), the size
shrinks by one, the returned pair plus the remaining multiset is the
original multiset, and the heap property is preserved. -/
theorem heap_remove_spec (heap : List (Nat × G)) (hne : heap ≠ [])
    (hH : IsMaxHeap heap) :
    ∃ rest, secp256k1_heap_remove heap = some (aget heap 0, rest) ∧
      rest.length = heap.length - 1 ∧
      (↑heap : Multiset (Nat × G)) = aget heap 0 ::ₘ (↑rest : Multiset (Nat × G)) ∧
      IsMaxHeap rest := by
  have hpos : 0 < heap.length := List.length_pos.mpr hne
  have hlen1 : (heap.set 0 (aget heap (heap.length - 1))).length = heap.length := by simp
  have hvC : aget (heap.set 0 (aget heap (heap.length - 1))) 0 =
      aget heap (heap.length - 1) := aget_set_self heap 0 _ hpos
  have hvN : aget (heap.set 0 (aget heap (heap.length - 1))) (heap.length - 1) =
      aget heap (heap.length - 1) := by
    rcases Nat.eq_zero_or_pos (heap.length - 1) with h0 | h0
    · rw [h0]; exact aget_set_self heap 0 _ hpos
    · rw [aget_set_ne heap 0 (heap.length - 1) _ (by omega)]
  have hmain := heapRemoveLoop_spec heap.length (aget heap (heap.length - 1))
    heap.length (heap.set 0 (aget heap (heap.length - 1))) 1 hlen1 (le_refl 1)
    (by omega) (by omega)
    (by
      intro j hj hj0 hpj
      have hpj0 : parentIdx j ≠ 0 := by simpa using hpj
      rw [aget_set_ne heap 0 j _ (by omega),
        aget_set_ne heap 0 (parentIdx j) _ (fun h => hpj0 h.symm)]
      exact hH j hj hj0)
    (by intro h0; exfalso; omega)
    hvC hvN
  have hrlen : (heapRemoveLoop heap.length (heap.set 0 (aget heap (heap.length - 1)))
      heap.length 1).length = heap.length := hmain.1
  have hrne : heapRemoveLoop heap.length (heap.set 0 (aget heap (heap.length - 1)))
      heap.length 1 ≠ [] := by
    apply List.length_pos.mp
    rw [hrlen]
    exact hpos
  refine ⟨(heapRemoveLoop heap.length (heap.set 0 (aget heap (heap.length - 1)))
      heap.length 1).dropLast, ?_, ?_, ?_, ?_⟩
  · simp only [secp256k1_heap_remove]
    rw [if_neg (by omega)]
  · rw [List.length_dropLast, hrlen]
  · -- multiset bookkeeping through set, sift and dropLast
    have hms1 : aget heap 0 ::ₘ (↑(heap.set 0 (aget heap (heap.length - 1))) : Multiset (Nat × G)) =
        aget heap (heap.length - 1) ::ₘ (↑heap : Multiset (Nat × G)) :=
      mset_set heap 0 _ hpos
    have hdl := mset_dropLast _ hrne
    rw [hrlen, hmain.2.2.2] at hdl
    have hch : aget heap 0 ::ₘ (aget heap (heap.length - 1) ::ₘ
        (↑(heapRemoveLoop heap.length (heap.set 0 (aget heap (heap.length - 1)))
          heap.length 1).dropLast : Multiset (Nat × G))) =
        aget heap (heap.length - 1) ::ₘ (↑heap : Multiset (Nat × G)) := by
      rw [← hdl, hmain.2.1]
      exact hms1
    rw [Multiset.cons_swap] at hch
    exact ((Multiset.cons_inj_right _).mp hch).symm
  · intro j hj hj0
    rw [List.length_dropLast, hrlen] at hj
    rw [aget_dropLast _ _ (by omega), aget_dropLast _ _ ?hpar]
    case hpar =>
      have := parentIdx_lt j hj0
      omega
    exact hmain.2.2.1 j (by omega) hj0


theorem naiveScalarMul_eq_smul (n : Nat) (p : G) : naiveScalarMul n p = n • p := by
  induction n with
  | zero => simp [naiveScalarMul]
  | succ n ih => rw [naiveScalarMul, ih, succ_nsmul, add_comm]

theorem perm_of_mset_cons {l₁ l₂ : List (Nat × G)} {t : Nat × G}
    (hm : (↑l₁ : Multiset (Nat × G)) = t ::ₘ (↑l₂ : Multiset (Nat × G))) :
    l₁.Perm (t :: l₂) := by
  rw [Multiset.cons_coe] at hm
  exact Multiset.coe_eq_coe.mp hm

theorem wsum_of_mset_cons {l₁ l₂ : List (Nat × G)} {t : Nat × G}
    (hm : (↑l₁ : Multiset (Nat × G)) = t ::ₘ (↑l₂ : Multiset (Nat × G))) :
    wsum l₁ = t.1 • t.2 + wsum l₂ := by
  have := ((perm_of_mset_cons hm).map fun u => u.1 • u.2).sum_eq
  simpa [wsum] using this

theorem ssum_of_mset_cons {l₁ l₂ : List (Nat × G)} {t : Nat × G}
    (hm : (↑l₁ : Multiset (Nat × G)) = t ::ₘ (↑l₂ : Multiset (Nat × G))) :
    ssum l₁ = t.1 + ssum l₂ := by
  have := ((perm_of_mset_cons hm).map fun u => u.1).sum_eq
  simpa [ssum] using this

theorem mem_of_mset_cons {l₁ l₂ : List (Nat × G)} {t u : Nat × G}
    (hm : (↑l₁ : Multiset (Nat × G)) = t ::ₘ (↑l₂ : Multiset (Nat × G)))
    (hu : u ∈ l₁) : u = t ∨ u ∈ l₂ := by
  have := (perm_of_mset_cons hm).mem_iff.mp hu
  simpa using this

theorem mem_of_mset_cons_right {l₁ l₂ : List (Nat × G)} {t u : Nat × G}
    (hm : (↑l₁ : Multiset (Nat × G)) = t ::ₘ (↑l₂ : Multiset (Nat × G)))
    (hu : u ∈ l₂) : u ∈ l₁ :=
  (perm_of_mset_cons hm).mem_iff.mpr (List.mem_cons_of_mem t hu)

theorem mem_head_of_mset_cons {l₁ l₂ : List (Nat × G)} {t : Nat × G}
    (hm : (↑l₁ : Multiset (Nat × G)) = t ::ₘ (↑l₂ : Multiset (Nat × G))) :
    t ∈ l₁ :=
  (perm_of_mset_cons hm).mem_iff.mpr (List.mem_cons_self t l₂)

/-- The central step lemma: from a valid reduction state with at least two
terms, one iteration of the reduction loop extracts the two maximal terms,
succeeds, preserves validity and the weighted sum, strictly shrinks the
scalar total, and — when the two extracted scalars differ — the reinserted
difference is the exact (non-wrapping) integer difference and every
remaining scalar is strictly below the extracted maximum. -/
theorem ecmultStep_spec (N : Nat) (h : List (Nat × G)) (hOK : HeapOK N h)
    (hlen : 2 ≤ h.length) :
    ∃ h1 h2 h',
      secp256k1_heap_remove h = some (aget h 0, h1) ∧
      secp256k1_heap_remove h1 = some (aget h1 0, h2) ∧
      ecmultStep N h = some h' ∧
      HeapOK N h' ∧
      wsum h' = wsum h ∧
      ssum h' < ssum h ∧
      h'.length ≤ h.length ∧ 1 ≤ h'.length ∧
      (aget h1 0).1 ≤ (aget h 0).1 ∧
      ((aget h 0).1 = (aget h1 0).1 → h'.length + 1 = h.length) ∧
      ((aget h 0).1 ≠ (aget h1 0).1 →
        (aget h1 0).1 < (aget h 0).1 ∧
        secp256k1_scalar_add N (aget h 0).1 (secp256k1_scalar_negate N (aget h1 0).1) =
          (aget h 0).1 - (aget h1 0).1 ∧
        0 < (aget h 0).1 - (aget h1 0).1 ∧
        (aget h 0).1 - (aget h1 0).1 < (aget h 0).1 ∧
        h'.length = h.length ∧
        ∀ u ∈ h', u.1 < (aget h 0).1) := by
  obtain ⟨hH, hval⟩ := hOK
  have hne : h ≠ [] := by
    intro he; rw [he] at hlen; simp at hlen
  obtain ⟨h1, e1, len1, ms1, H1⟩ := heap_remove_spec h hne hH
  have ht1mem : aget h 0 ∈ h := aget_mem h 0 (by omega)
  have ht1val := hval _ ht1mem
  have hmax1 : ∀ u ∈ h, u.1 ≤ (aget h 0).1 := isMaxHeap_mem_le_root h hH
  have hmem1 : ∀ u ∈ h1, u ∈ h := fun u hu => mem_of_mset_cons_right ms1 hu
  have hval1 : ∀ t ∈ h1, 0 < t.1 ∧ t.1 < N := fun t ht => hval t (hmem1 t ht)
  have hne1 : h1 ≠ [] := by
    apply List.length_pos.mp; omega
  obtain ⟨h2, e2, len2, ms2, H2⟩ := heap_remove_spec h1 hne1 H1
  have ht2mem : aget h1 0 ∈ h1 := aget_mem h1 0 (by omega)
  have ht2val := hval1 _ ht2mem
  have hmax2 : ∀ u ∈ h1, u.1 ≤ (aget h1 0).1 := isMaxHeap_mem_le_root h1 H1
  have hmem2 : ∀ u ∈ h2, u ∈ h1 := fun u hu => mem_of_mset_cons_right ms2 hu
  have hval2 : ∀ t ∈ h2, 0 < t.1 ∧ t.1 < N := fun t ht => hval1 t (hmem2 t ht)
  have hle21 : (aget h1 0).1 ≤ (aget h 0).1 := hmax1 _ (hmem1 _ ht2mem)
  obtain ⟨len3, H3, ms3⟩ := heap_insert_spec h2 (aget h1 0).1
    (secp256k1_gej_add_var (aget h 0).2 (aget h1 0).2) H2
  have hws0 : wsum h = (aget h 0).1 • (aget h 0).2 +
      ((aget h1 0).1 • (aget h1 0).2 + wsum h2) := by
    rw [wsum_of_mset_cons ms1, wsum_of_mset_cons ms2]
  have hss0 : ssum h = (aget h 0).1 + ((aget h1 0).1 + ssum h2) := by
    rw [ssum_of_mset_cons ms1, ssum_of_mset_cons ms2]
  have hws3 : wsum (secp256k1_heap_insert h2 (aget h1 0).1
      (secp256k1_gej_add_var (aget h 0).2 (aget h1 0).2)) =
      (aget h1 0).1 • (aget h 0).2 + ((aget h1 0).1 • (aget h1 0).2 + wsum h2) := by
    rw [wsum_of_mset_cons ms3]
    simp only [secp256k1_gej_add_var]
    rw [smul_add, add_assoc]
  have hss3 : ssum (secp256k1_heap_insert h2 (aget h1 0).1
      (secp256k1_gej_add_var (aget h 0).2 (aget h1 0).2)) =
      (aget h1 0).1 + ssum h2 := by rw [ssum_of_mset_cons ms3]
  by_cases hs : (aget h 0).1 = (aget h1 0).1
  · -- equal scalars: only the combined term goes back
    refine ⟨h1, h2,
      secp256k1_heap_insert h2 (aget h1 0).1
        (secp256k1_gej_add_var (aget h 0).2 (aget h1 0).2),
      e1, e2, ?_, ?_, ?_, ?_, ?_, ?_, hle21, ?_, ?_⟩
    · simp only [ecmultStep, e1, e2, secp256k1_scalar_eq]
      rw [if_pos (by simpa using hs)]
    · refine ⟨H3, ?_⟩
      intro t ht
      rcases mem_of_mset_cons ms3 ht with hteq | hth2
      · rw [hteq]; exact ht2val
      · exact hval2 t hth2
    · rw [hws3, hws0, hs]
    · rw [hss3, hss0]; omega
    · omega
    · omega
    · intro _; omega
    · intro hne'; exact absurd hs hne'
  · -- distinct scalars: the difference is reinserted, computed without wrap
    have hlt : (aget h1 0).1 < (aget h 0).1 :=
      lt_of_le_of_ne hle21 (fun he => hs he.symm)
    have hd : secp256k1_scalar_add N (aget h 0).1
        (secp256k1_scalar_negate N (aget h1 0).1) =
        (aget h 0).1 - (aget h1 0).1 := by
      simp only [secp256k1_scalar_add, secp256k1_scalar_negate]
      have e_neg : (N - (aget h1 0).1) % N = N - (aget h1 0).1 :=
        Nat.mod_eq_of_lt (by omega)
      rw [e_neg, show (aget h 0).1 + (N - (aget h1 0).1) =
        N + ((aget h 0).1 - (aget h1 0).1) from by omega,
        Nat.add_mod_left]
      exact Nat.mod_eq_of_lt (by omega)
    obtain ⟨len4, H4, ms4⟩ := heap_insert_spec
      (secp256k1_heap_insert h2 (aget h1 0).1
        (secp256k1_gej_add_var (aget h 0).2 (aget h1 0).2))
      (secp256k1_scalar_add N (aget h 0).1 (secp256k1_scalar_negate N (aget h1 0).1))
      (aget h 0).2 H3
    refine ⟨h1, h2,
      secp256k1_heap_insert
        (secp256k1_heap_insert h2 (aget h1 0).1
          (secp256k1_gej_add_var (aget h 0).2 (aget h1 0).2))
        (secp256k1_scalar_add N (aget h 0).1 (secp256k1_scalar_negate N (aget h1 0).1))
        (aget h 0).2,
      e1, e2, ?_, ?_, ?_, ?_, ?_, ?_, hle21, ?_, ?_⟩
    · simp only [ecmultStep, e1, e2, secp256k1_scalar_eq]
      rw [if_neg (by simpa using hs)]
    · refine ⟨H4, ?_⟩
      intro t ht
      rcases mem_of_mset_cons ms4 ht with hteq | hth3
      · rw [hteq]
        refine ⟨?_, ?_⟩
        · simp only [hd]; omega
        · simp only [hd]; omega
      · rcases mem_of_mset_cons ms3 hth3 with hteq' | hth2
        · rw [hteq']; exact ht2val
        · exact hval2 t hth2
    · -- weighted-sum preservation via n·X + m·Y = (n-m)·X + m·(X+Y)
      have key : ((aget h 0).1 - (aget h1 0).1) • (aget h 0).2 +
          (aget h1 0).1 • (aget h 0).2 = (aget h 0).1 • (aget h 0).2 := by
        rw [← add_nsmul]
        congr 1
        omega
      calc wsum (secp256k1_heap_insert
            (secp256k1_heap_insert h2 (aget h1 0).1
              (secp256k1_gej_add_var (aget h 0).2 (aget h1 0).2))
            (secp256k1_scalar_add N (aget h 0).1
              (secp256k1_scalar_negate N (aget h1 0).1)) (aget h 0).2) =
          ((aget h 0).1 - (aget h1 0).1) • (aget h 0).2 +
            ((aget h1 0).1 • (aget h 0).2 +
              ((aget h1 0).1 • (aget h1 0).2 + wsum h2)) := by
            rw [wsum_of_mset_cons ms4, hws3, hd]
        _ = (((aget h 0).1 - (aget h1 0).1) • (aget h 0).2 +
              (aget h1 0).1 • (aget h 0).2) +
            ((aget h1 0).1 • (aget h1 0).2 + wsum h2) := by
            rw [add_assoc]
        _ = (aget h 0).1 • (aget h 0).2 +
            ((aget h1 0).1 • (aget h1 0).2 + wsum h2) := by rw [key]
        _ = wsum h := hws0.symm
    · rw [ssum_of_mset_cons ms4, hss3, hd, hss0]; omega
    · omega
    · omega
    · intro he; exact absurd he hs
    · intro _
      refine ⟨hlt, hd, by omega, by omega, by omega, ?_⟩
      intro u hu
      rcases mem_of_mset_cons ms4 hu with hueq | huh3
      · rw [hueq]; simp only [hd]; omega
      · rcases mem_of_mset_cons ms3 huh3 with hueq' | huh2
        · rw [hueq']; exact hlt
        · exact lt_of_le_of_lt (hmax2 u (hmem2 u huh2)) hlt

theorem heapMaxSc_cons (a : Nat × G) (t : List (Nat × G)) :
    heapMaxSc (a :: t) = max a.1 (heapMaxSc t) := rfl

theorem le_heapMaxSc (l : List (Nat × G)) (u : Nat × G) (hu : u ∈ l) :
    u.1 ≤ heapMaxSc l := by
  induction l with
  | nil => simp at hu
  | cons a t ih =>
    rw [heapMaxSc_cons]
    rcases List.mem_cons.mp hu with h | h
    · rw [h]; exact le_max_left _ _
    · exact le_trans (ih h) (le_max_right _ _)

theorem heapMaxSc_lt_of (l : List (Nat × G)) (c : Nat) (hc : 0 < c)
    (hall : ∀ u ∈ l, u.1 < c) : heapMaxSc l < c := by
  induction l with
  | nil => exact hc
  | cons a t ih =>
    rw [heapMaxSc_cons]
    exact max_lt (hall a (List.mem_cons_self a t))
      (ih fun u hu => hall u (List.mem_cons_of_mem a hu))

/-- The reduction loop, run with any fuel exceeding the total of the stored
scalars, terminates with exactly one term left, preserving validity and the
weighted sum.  (Each iteration strictly decreases the scalar total by
`ecmultStep_spec`, so the fuel bound is sufficient.) -/
theorem ecmultLoop_spec (N : Nat) (fuel : Nat) :
    ∀ h : List (Nat × G), HeapOK N h → 1 ≤ h.length → ssum h < fuel →
    ∃ h', ecmultLoop N fuel h = some h' ∧ HeapOK N h' ∧ h'.length = 1 ∧
      wsum h' = wsum h := by
  induction fuel with
  | zero =>
    intro h _ _ hf
    exact absurd hf (Nat.not_lt_zero _)
  | succ fuel ih =>
    intro h hOK hone hf
    simp only [ecmultLoop]
    by_cases hl : 1 < h.length
    · rw [if_pos hl]
      obtain ⟨hh1, hh2, h', e1, e2, estep, hOK', hws, hss, hlenle, hlen1, _, _, _⟩ :=
        ecmultStep_spec N h hOK (by omega)
      rw [estep]
      obtain ⟨h'', e'', hOK'', hlen'', hws''⟩ := ih h' hOK' hlen1 (by omega)
      exact ⟨h'', e'', hOK'', hlen'', hws''.trans hws⟩
    · rw [if_neg hl]
      exact ⟨h, rfl, hOK, by omega, rfl⟩

/-- Any state reachable at an iteration boundary of the reduction loop is a
valid heap whose weighted sum equals the starting weighted sum. -/
theorem ecmultIter_spec (N : Nat) (k : Nat) :
    ∀ h h' : List (Nat × G), HeapOK N h → ecmultIter N k h = some h' →
    HeapOK N h' ∧ wsum h' = wsum h ∧ h'.length ≤ h.length := by
  induction k with
  | zero =>
    intro h h' hOK he
    simp only [ecmultIter, Option.some.injEq] at he
    subst he
    exact ⟨hOK, rfl, le_refl _⟩
  | succ k ih =>
    intro h h' hOK he
    simp only [ecmultIter] at he
    by_cases hl : 1 < h.length
    · rw [if_pos hl] at he
      obtain ⟨hh1, hh2, hstep', e1, e2, estep, hOK', hws, _, hlenle, _, _, _, _⟩ :=
        ecmultStep_spec N h hOK (by omega)
      rw [estep] at he
      obtain ⟨hOK'', hws'', hlen''⟩ := ih hstep' h' hOK' he
      exact ⟨hOK'', hws''.trans hws, le_trans hlen'' hlenle⟩
    · rw [if_neg hl, Option.some.injEq] at he
      subst he
      exact ⟨hOK, rfl, le_refl _⟩

theorem wsum_cons (t : Nat × G) (l : List (Nat × G)) :
    wsum (t :: l) = t.1 • t.2 + wsum l := by
  simp [wsum]

theorem buildHeapFold_spec (terms : List (Nat × G)) :
    ∀ acc : List (Nat × G), IsMaxHeap acc →
    IsMaxHeap (terms.foldl buildHeapStep acc) ∧
    wsum (terms.foldl buildHeapStep acc) = wsum acc + wsum terms ∧
    (terms.foldl buildHeapStep acc).length ≤ acc.length + terms.length ∧
    ∀ u ∈ terms.foldl buildHeapStep acc, u ∈ acc ∨ (0 < u.1 ∧ u ∈ terms) := by
  induction terms with
  | nil =>
    intro acc hacc
    refine ⟨hacc, by simp [wsum], by simp, fun u hu => Or.inl (by simpa using hu)⟩
  | cons t rest ih =>
    intro acc hacc
    rw [List.foldl_cons]
    by_cases hz : t.1 = 0
    · have hstep : buildHeapStep acc t = acc := by
        simp [buildHeapStep, secp256k1_scalar_is_zero, hz]
      rw [hstep]
      obtain ⟨ih1, ih2, ih3, ih4⟩ := ih acc hacc
      refine ⟨ih1, ?_, by simp; omega, ?_⟩
      · rw [ih2, wsum_cons, hz, zero_nsmul, zero_add]
      · intro u hu
        rcases ih4 u hu with hmem | ⟨hpos, hmem⟩
        · exact Or.inl hmem
        · exact Or.inr ⟨hpos, List.mem_cons_of_mem t hmem⟩
    · have hstep : buildHeapStep acc t = secp256k1_heap_insert acc t.1 t.2 := by
        simp [buildHeapStep, secp256k1_scalar_is_zero, hz]
      rw [hstep]
      obtain ⟨ilen, iH, ims⟩ := heap_insert_spec acc t.1 t.2 hacc
      obtain ⟨ih1, ih2, ih3, ih4⟩ := ih _ iH
      refine ⟨ih1, ?_, ?_, ?_⟩
      · rw [ih2, wsum_of_mset_cons ims, wsum_cons]
        abel
      · rw [ilen] at ih3
        simp only [List.length_cons]
        omega
      · intro u hu
        rcases ih4 u hu with hmem | ⟨hpos, hmem⟩
        · rcases mem_of_mset_cons ims hmem with heq | hacc'
          · refine Or.inr ⟨?_, ?_⟩
            · rw [heq]; omega
            · rw [heq, Prod.mk.eta]
              exact List.mem_cons_self t rest
          · exact Or.inl hacc'
        · exact Or.inr ⟨hpos, List.mem_cons_of_mem t hmem⟩

theorem buildHeap_spec (terms : List (Nat × G)) :
    IsMaxHeap (buildHeap terms) ∧
    wsum (buildHeap terms) = wsum terms ∧
    (buildHeap terms).length ≤ terms.length ∧
    ∀ u ∈ buildHeap terms, 0 < u.1 ∧ u ∈ terms := by
  obtain ⟨h1, h2, h3, h4⟩ := buildHeapFold_spec terms []
    (by intro j hj _; simp at hj)
  unfold buildHeap
  refine ⟨h1, ?_, by simpa using h3, fun u hu => ?_⟩
  · rw [h2]; simp [wsum]
  · rcases h4 u hu with hmem | hgood
    · simp at hmem
    · exact hgood

theorem buildHeap_all_zero :
    ∀ terms : List (Nat × G), (∀ t ∈ terms, t.1 = 0) → buildHeap terms = [] := by
  intro terms
  induction terms with
  | nil => intro _; rfl
  | cons t rest ih =>
    intro hz
    have ht := hz t (List.mem_cons_self t rest)
    show (t :: rest).foldl buildHeapStep [] = []
    rw [List.foldl_cons,
      show buildHeapStep [] t = [] from by
        simp [buildHeapStep, secp256k1_scalar_is_zero, ht]]
    exact ih fun u hu => hz u (List.mem_cons_of_mem t hu)

/-- The binary ladder computes `r + s • p` whenever its fuel is at least
`s` (the scalar halves every iteration, so `s` iterations are plenty). -/
theorem ecmultLadder_spec (fuel : Nat) :
    ∀ (s : Nat) (p r : G), s ≤ fuel → ecmultLadder fuel s p r = r + s • p := by
  induction fuel with
  | zero =>
    intro s p r hs
    have h0 : s = 0 := by omega
    subst h0
    simp [ecmultLadder]
  | succ fuel ih =>
    intro s p r hs
    simp only [ecmultLadder]
    by_cases h0 : s = 0
    · rw [if_pos (by simp [secp256k1_scalar_is_zero, h0])]
      subst h0
      simp
    · rw [if_neg (by simp [secp256k1_scalar_is_zero, h0])]
      simp only [secp256k1_scalar_shr_int, pow_one, secp256k1_gej_add_var,
        secp256k1_gej_double_nonzero]
      rw [ih (s / 2) (p + p) _ (by omega)]
      by_cases hb : s % 2 = 1
      · rw [if_pos hb]
        obtain ⟨k, hk⟩ : ∃ k, s = 2 * k + 1 := ⟨s / 2, by omega⟩
        subst hk
        rw [show (2 * k + 1) / 2 = k from by omega, smul_add,
          show (2 * k + 1) • p = k • p + k • p + p from by
            rw [show 2 * k + 1 = k + k + 1 from by omega, succ_nsmul, add_nsmul]]
        abel
      · rw [if_neg hb]
        obtain ⟨k, hk⟩ : ∃ k, s = 2 * k := ⟨s / 2, by omega⟩
        subst hk
        rw [show 2 * k / 2 = k from by omega, smul_add,
          show (2 * k) • p = k • p + k • p from by rw [two_mul, add_nsmul]]

theorem ecmultLadderTrace_fst (fuel : Nat) :
    ∀ (s : Nat) (p r : G) (ds : List G),
    (ecmultLadderTrace fuel s p r ds).1 = ecmultLadder fuel s p r := by
  induction fuel with
  | zero => intro s p r ds; rfl
  | succ fuel ih =>
    intro s p r ds
    simp only [ecmultLadderTrace, ecmultLadder]
    split_ifs with hc hb
    · rfl
    · exact ih _ _ _ _
    · exact ih _ _ _ _

theorem size_div_two_succ (s : Nat) (h : s ≠ 0) :
    Nat.size s = Nat.size (s / 2) + 1 := by
  conv_lhs => rw [← Nat.bit_decomp s]
  rw [Nat.size_bit, Nat.div2_val]
  rw [Nat.bit_decomp]
  exact h

/-- The ladder performs exactly one doubling per loop iteration — that is,
`Nat.size s` of them (the number of binary digits of `s`), including one on
the final iteration after the scalar has been shifted to zero. -/
theorem ecmultLadderTrace_len (fuel : Nat) :
    ∀ (s : Nat) (p r : G) (ds : List G), s ≤ fuel →
    (ecmultLadderTrace fuel s p r ds).2.length = ds.length + Nat.size s := by
  induction fuel with
  | zero =>
    intro s p r ds hs
    have h0 : s = 0 := by omega
    subst h0
    simp [ecmultLadderTrace, Nat.size_zero]
  | succ fuel ih =>
    intro s p r ds hs
    simp only [ecmultLadderTrace]
    by_cases h0 : s = 0
    · rw [if_pos (by simp [secp256k1_scalar_is_zero, h0])]
      subst h0
      simp [Nat.size_zero]
    · rw [if_neg (by simp [secp256k1_scalar_is_zero, h0])]
      simp only [secp256k1_scalar_shr_int, pow_one]
      rw [ih _ _ _ _ (by omega), size_div_two_succ s h0]
      simp only [List.length_append, List.length_singleton]
      omega

/-- In a group with no 2-torsion, starting from a non-infinity point, every
point the ladder passes to the doubling routine is non-infinity. -/
theorem ecmultLadderTrace_doubles_nonzero
    (htor : ∀ x : G, x ≠ 0 → x + x ≠ 0) (fuel : Nat) :
    ∀ (s : Nat) (p r : G) (ds : List G), p ≠ 0 → (∀ q ∈ ds, q ≠ 0) →
    ∀ q ∈ (ecmultLadderTrace fuel s p r ds).2, q ≠ 0 := by
  induction fuel with
  | zero => intro s p r ds _ hds q hq; exact hds q hq
  | succ fuel ih =>
    intro s p r ds hp hds
    simp only [ecmultLadderTrace]
    split_ifs with hc hb
    · exact hds
    · refine ih _ _ _ _ (htor p hp) ?_
      intro q hq
      rcases List.mem_append.mp hq with h | h
      · exact hds q h
      · rw [List.mem_singleton.mp h]
        exact hp
    · refine ih _ _ _ _ (htor p hp) ?_
      intro q hq
      rcases List.mem_append.mp hq with h | h
      · exact hds q h
      · rw [List.mem_singleton.mp h]
        exact hp

/-- Full functional correctness of the translated `secp256k1_ecmult_multi`:
for canonical scalars and at most 32 terms it returns exactly the weighted
sum of the inputs. -/
theorem ecmult_multi_spec (N : Nat) (sc : List Nat) (pt : List G)
    (hcap : sc.length ≤ 32) (hsc : ∀ s ∈ sc, s < N) :
    secp256k1_ecmult_multi N sc pt = some (wsum (sc.zip pt)) := by
  unfold secp256k1_ecmult_multi
  rw [if_pos (by simpa [SECP256K1_ECMULT_MULTI_MAX_N] using hcap)]
  obtain ⟨hBH, hBw, hBlen, hBmem⟩ := buildHeap_spec (sc.zip pt)
  by_cases hz : (buildHeap (sc.zip pt)).length = 0
  · rw [if_pos hz]
    have hB0 : buildHeap (sc.zip pt) = [] := List.length_eq_zero.mp hz
    have hw0 : wsum (sc.zip pt) = 0 := by
      rw [← hBw, hB0]
      simp [wsum]
    rw [hw0]
    rfl
  · rw [if_neg hz]
    have hOK : HeapOK N (buildHeap (sc.zip pt)) := by
      refine ⟨hBH, fun t ht => ⟨(hBmem t ht).1, ?_⟩⟩
      have hzip := (hBmem t ht).2
      have : (t.1, t.2) ∈ sc.zip pt := by rw [Prod.mk.eta]; exact hzip
      exact hsc t.1 (List.of_mem_zip this).1
    obtain ⟨h'', e'', hOK'', hlen'', hws''⟩ := ecmultLoop_spec N
      (ssum (buildHeap (sc.zip pt)) + 1) (buildHeap (sc.zip pt)) hOK
      (by omega) (by omega)
    rw [e'']
    dsimp only
    obtain ⟨t, ht⟩ := List.length_eq_one.mp hlen''
    have hag : aget h'' 0 = t := by rw [ht]; rfl
    have htmem : t ∈ h'' := by rw [ht]; exact List.mem_cons_self t []
    have htval := hOK''.2 t htmem
    have hwt : wsum h'' = t.1 • t.2 := by
      rw [ht, wsum_cons]
      simp [wsum]
    rw [if_pos ⟨hlen'', by
      rw [hag]
      simp [secp256k1_scalar_is_zero]
      omega⟩]
    by_cases hpz : t.2 = 0
    · rw [if_pos (by rw [hag]; simp [secp256k1_gej_is_infinity, hpz])]
      have : wsum (sc.zip pt) = 0 := by
        rw [← hBw, ← hws'', hwt, hpz, smul_zero]
      rw [this]
      rfl
    · rw [if_neg (by rw [hag]; simp [secp256k1_gej_is_infinity, hpz])]
      rw [hag]
      rw [ecmultLadder_spec t.1 t.1 t.2 secp256k1_gej_set_infinity (le_refl _)]
      rw [show (secp256k1_gej_set_infinity : G) + t.1 • t.2 = t.1 • t.2 from by
        simp [secp256k1_gej_set_infinity]]
      rw [← hwt, hws'', hBw]

/-! ### Unconditional size lemmas (bounds that hold with no heap property) -/

theorem length_heapInsertLoop (x : Nat × G) :
    ∀ (fuel : Nat) (a : List (Nat × G)) (ins : Nat),
    (heapInsertLoop x fuel a ins).length = a.length := by
  intro fuel
  induction fuel with
  | zero => intro a ins; simp [heapInsertLoop]
  | succ fuel ih =>
    intro a ins
    simp only [heapInsertLoop]
    split_ifs with hg
    · rw [ih]; simp
    · simp

theorem length_heap_insert (a : List (Nat × G)) (s : Nat) (p : G) :
    (secp256k1_heap_insert a s p).length = a.length + 1 := by
  unfold secp256k1_heap_insert
  rw [length_heapInsertLoop]
  simp

theorem length_heapRemoveLoop :
    ∀ (fuel : Nat) (a : List (Nat × G)) (n rem : Nat),
    (heapRemoveLoop fuel a n rem).length = a.length := by
  intro fuel
  induction fuel with
  | zero => intro a n rem; rfl
  | succ fuel ih =>
    intro a n rem
    simp only [heapRemoveLoop]
    split_ifs with hg1 hg2 hg3 <;>
      first
        | rfl
        | (rw [ih, length_heapSwap])

theorem length_heap_remove (st : List (Nat × G)) (t : Nat × G)
    (st'' : List (Nat × G)) (he : secp256k1_heap_remove st = some (t, st'')) :
    st''.length = st.length - 1 := by
  unfold secp256k1_heap_remove at he
  split_ifs at he with h0
  simp only [Option.some.injEq, Prod.mk.injEq] at he
  rw [← he.2, List.length_dropLast, length_heapRemoveLoop]
  simp

theorem heap_remove_out (st : List (Nat × G)) (t : Nat × G)
    (st'' : List (Nat × G)) (he : secp256k1_heap_remove st = some (t, st'')) :
    t = aget st 0 := by
  unfold secp256k1_heap_remove at he
  split_ifs at he with h0
  simp only [Option.some.injEq, Prod.mk.injEq] at he
  exact he.1.symm

theorem runHeapOpsFrom_length (ops : List (HeapOp G)) :
    ∀ st outs st' outs', runHeapOpsFrom st outs ops = some (st', outs') →
    st'.length ≤ st.length + ops.length := by
  induction ops with
  | nil =>
    intro st outs st' outs' he
    simp only [runHeapOpsFrom, Option.some.injEq, Prod.mk.injEq] at he
    rw [← he.1]
    simp
  | cons op rest ih =>
    intro st outs st' outs' he
    cases op with
    | ins s p =>
      simp only [runHeapOpsFrom] at he
      have := ih _ _ _ _ he
      rw [length_heap_insert] at this
      simp only [List.length_cons]
      omega
    | rem =>
      simp only [runHeapOpsFrom] at he
      cases hr : secp256k1_heap_remove st with
      | none => rw [hr] at he; exact absurd he (by simp)
      | some r =>
        rw [hr] at he
        have := ih _ _ _ _ he
        have hlr := length_heap_remove st r.1 r.2 (by rw [hr])
        simp only [List.length_cons]
        omega

/-- Scripts preserve the heap property and track the exact multiset of all
inserted terms across the stored and removed parts. -/
theorem runHeapOpsFrom_spec (ops : List (HeapOp G)) :
    ∀ st outs st' outs', IsMaxHeap st →
    runHeapOpsFrom st outs ops = some (st', outs') →
    IsMaxHeap st' ∧
    (↑st' : Multiset (Nat × G)) + ↑outs' =
      (↑st : Multiset (Nat × G)) + ↑outs + ↑(insertedTerms ops) := by
  induction ops with
  | nil =>
    intro st outs st' outs' hH he
    simp only [runHeapOpsFrom, Option.some.injEq, Prod.mk.injEq] at he
    rw [← he.1, ← he.2]
    refine ⟨hH, ?_⟩
    simp [insertedTerms]
  | cons op rest ih =>
    intro st outs st' outs' hH he
    cases op with
    | ins s p =>
      simp only [runHeapOpsFrom] at he
      obtain ⟨ilen, iH, ims⟩ := heap_insert_spec st s p hH
      obtain ⟨hH', hms'⟩ := ih _ _ _ _ iH he
      refine ⟨hH', ?_⟩
      rw [hms', ims]
      simp only [insertedTerms]
      rw [show ((↑((s, p) :: insertedTerms rest) : Multiset (Nat × G))) =
        (s, p) ::ₘ ↑(insertedTerms rest) from by rw [Multiset.cons_coe],
        ← Multiset.singleton_add, ← Multiset.singleton_add]
      abel
    | rem =>
      simp only [runHeapOpsFrom] at he
      cases hr : secp256k1_heap_remove st with
      | none => rw [hr] at he; exact absurd he (by simp)
      | some r =>
        rw [hr] at he
        have hne : st ≠ [] := by
          intro h0
          rw [h0] at hr
          simp [secp256k1_heap_remove] at hr
        obtain ⟨rest', e', len', ms', H'⟩ := heap_remove_spec st hne hH
        rw [e'] at hr
        simp only [Option.some.injEq] at hr
        obtain ⟨hH', hms'⟩ := ih _ _ _ _ (by rw [← hr]; exact H') he
        refine ⟨hH', ?_⟩
        rw [hms', ← hr]
        simp only [insertedTerms]
        rw [show ((↑(outs ++ [aget st 0]) : Multiset (Nat × G))) =
          ↑outs + ↑[aget st 0] from by rw [← Multiset.coe_add],
          ms', ← Multiset.singleton_add,
          show ((↑[aget st 0] : Multiset (Nat × G))) = {aget st 0} from rfl]
        abel

theorem buildHeap_HeapOK (N : Nat) (sc : List Nat) (pt : List G)
    (hsc : ∀ s ∈ sc, s < N) : HeapOK N (buildHeap (sc.zip pt)) := by
  obtain ⟨hBH, _, _, hBmem⟩ := buildHeap_spec (sc.zip pt)
  refine ⟨hBH, fun t ht => ⟨(hBmem t ht).1, ?_⟩⟩
  have hzip := (hBmem t ht).2
  have hmk : (t.1, t.2) ∈ sc.zip pt := by rw [Prod.mk.eta]; exact hzip
  exact hsc t.1 (List.of_mem_zip hmk).1

/-! ### The claims -/

/-- Claim C1: for every n with 0 ≤ n ≤ 32 and all scalar/point inputs
(zero scalars and infinity points included), `secp256k1_ecmult_multi`
returns the group element `R = Σ sc[i] • pt[i]`, equal to the pairwise sum
of naive per-term scalar multiplications. -/
theorem claim_C1 (N : Nat) (sc : List Nat) (pt : List G)
    (hn : sc.length = pt.length) (hcap : sc.length ≤ 32)
    (hsc : ∀ s ∈ sc, s < N) :
    secp256k1_ecmult_multi N sc pt = some (wsum (sc.zip pt)) ∧
    wsum (sc.zip pt) = ((sc.zip pt).map fun t => naiveScalarMul t.1 t.2).sum := by
  refine ⟨ecmult_multi_spec N sc pt hcap hsc, ?_⟩
  simp [wsum, naiveScalarMul_eq_smul]

theorem claim_C1_witness :
    (∀ s ∈ [3, 5], s < 7) ∧
    secp256k1_ecmult_multi 7 [3, 5] [(2 : Nat), 3] =
      some (wsum ([3, 5].zip [(2 : Nat), 3])) ∧
    wsum ([3, 5].zip [(2 : Nat), 3]) =
      (([3, 5].zip [(2 : Nat), 3]).map fun t => naiveScalarMul t.1 t.2).sum :=
  ⟨by decide, claim_C1 7 [3, 5] [2, 3] (by decide) (by decide) (by decide)⟩

/-- Claim C2: at every iteration boundary of the reduction loop the
weighted sum of the heap-resident terms equals the original target
`Σ sc[i] • pt[i]`, and each combination step preserves the weighted sum
exactly. -/
theorem claim_C2 (N : Nat) (sc : List Nat) (pt : List G)
    (hcap : sc.length ≤ 32) (hsc : ∀ s ∈ sc, s < N) :
    (∀ (k : Nat) (h' : List (Nat × G)),
      ecmultIter N k (buildHeap (sc.zip pt)) = some h' →
      wsum h' = wsum (sc.zip pt)) ∧
    (∀ h h' : List (Nat × G), HeapOK N h → 2 ≤ h.length →
      ecmultStep N h = some h' → wsum h' = wsum h) := by
  constructor
  · intro k h' he
    obtain ⟨_, hws, _⟩ := ecmultIter_spec N k _ h' (buildHeap_HeapOK N sc pt hsc) he
    rw [hws, (buildHeap_spec (sc.zip pt)).2.1]
  · intro h h' hOK hlen he
    obtain ⟨h1, h2, h'0, e1, e2, estep, _, hws, _, _, _, _, _, _⟩ :=
      ecmultStep_spec N h hOK hlen
    rw [estep, Option.some.injEq] at he
    rw [← he]
    exact hws

theorem claim_C2_witness :
    (∀ s ∈ [3, 5], s < 7) ∧
    ecmultIter 7 1 (buildHeap ([3, 5].zip [(2 : Nat), 3])) = some [(3, 5), (2, 3)] ∧
    wsum [((3 : Nat), (5 : Nat)), (2, 3)] = wsum ([3, 5].zip [(2 : Nat), 3]) :=
  ⟨by decide, by decide,
    (claim_C2 7 [3, 5] [2, 3] (by decide) (by decide)).1 1 [(3, 5), (2, 3)] (by decide)⟩

/-- Claim C3: the reduction loop terminates for every valid input (fuel one
more than the scalar total always suffices, ending with exactly one
non-zero term), and on each iteration either the largest scalar strictly
decreases (extracted scalars unequal) or the term count strictly decreases
(extracted scalars equal). -/
theorem claim_C3 (N : Nat) (sc : List Nat) (pt : List G)
    (hcap : sc.length ≤ 32) (hsc : ∀ s ∈ sc, s < N) :
    (buildHeap (sc.zip pt) ≠ [] →
      ∃ h'', ecmultLoop N (ssum (buildHeap (sc.zip pt)) + 1)
          (buildHeap (sc.zip pt)) = some h'' ∧
        h''.length = 1 ∧ (aget h'' 0).1 ≠ 0) ∧
    (∀ h h1 h2m h' : List (Nat × G), HeapOK N h → 2 ≤ h.length →
      secp256k1_heap_remove h = some (aget h 0, h1) →
      secp256k1_heap_remove h1 = some (aget h1 0, h2m) →
      ecmultStep N h = some h' →
      ((aget h 0).1 ≠ (aget h1 0).1 → heapMaxSc h' < heapMaxSc h) ∧
      ((aget h 0).1 = (aget h1 0).1 → h'.length < h.length)) := by
  constructor
  · intro hne
    obtain ⟨h'', e'', hOK'', hlen'', _⟩ := ecmultLoop_spec N
      (ssum (buildHeap (sc.zip pt)) + 1) (buildHeap (sc.zip pt))
      (buildHeap_HeapOK N sc pt hsc)
      (by have := List.length_pos.mpr hne; omega) (by omega)
    refine ⟨h'', e'', hlen'', ?_⟩
    have hmem : aget h'' 0 ∈ h'' := aget_mem h'' 0 (by omega)
    have := hOK''.2 _ hmem
    omega
  · intro h h1' h2' h' hOK hlen e1' e2' estep'
    obtain ⟨h1, h2, h'0, e1, e2, estep, _, _, _, _, _, _, heq, hne⟩ :=
      ecmultStep_spec N h hOK hlen
    rw [e1] at e1'
    simp only [Option.some.injEq, Prod.mk.injEq, true_and] at e1'
    subst e1'
    rw [estep] at estep'
    simp only [Option.some.injEq] at estep'
    subst estep'
    constructor
    · intro hsne
      obtain ⟨hlt, _, _, _, _, hall⟩ := hne hsne
      have hm0 : 0 < (aget h 0).1 := (hOK.2 _ (aget_mem h 0 (by omega))).1
      exact lt_of_lt_of_le (heapMaxSc_lt_of _ _ hm0 hall)
        (le_heapMaxSc h _ (aget_mem h 0 (by omega)))
    · intro hseq
      have := heq hseq
      omega

theorem claim_C3_witness :
    HeapOK 7 [((5 : Nat), (3 : Nat)), (3, 2)] ∧
    heapMaxSc [((3 : Nat), (5 : Nat)), (2, 3)] < heapMaxSc [((5 : Nat), (3 : Nat)), (3, 2)] :=
  ⟨by decide,
    ((claim_C3 7 [3, 5] [2, 3] (by decide) (by decide)).2
      [((5 : Nat), (3 : Nat)), (3, 2)] [(3, 2)] [] [(3, 5), (2, 3)]
      (by decide) (by decide) (by decide) (by decide) (by decide)).1 (by decide)⟩

/-- Claim C4: for every insert/remove script from the empty heap (sizes
bounded by 32, no removal from an empty heap), after each operation the
max-heap property holds and the stored-plus-removed multiset equals the
multiset of inserted terms, and every removal returns a term whose scalar
is maximal in the heap at that moment. -/
theorem claim_C4 (ops : List (HeapOp G)) (st outs : List (Nat × G))
    (hcap : ∀ pre suf st' outs', ops = pre ++ suf →
      runHeapOps pre = some (st', outs') → st'.length ≤ 32)
    (hrun : runHeapOps ops = some (st, outs)) :
    (∀ pre suf st' outs', ops = pre ++ suf →
      runHeapOps pre = some (st', outs') →
      IsMaxHeap st' ∧
      (↑st' : Multiset (Nat × G)) + ↑outs' = ↑(insertedTerms pre)) ∧
    (∀ pre suf st' outs' t st'', ops = pre ++ (HeapOp.rem :: suf) →
      runHeapOps pre = some (st', outs') →
      secp256k1_heap_remove st' = some (t, st'') →
      ∀ u ∈ st', u.1 ≤ t.1) := by
  have hbase : ∀ pre (st' outs' : List (Nat × G)),
      runHeapOps pre = some (st', outs') →
      IsMaxHeap st' ∧
      (↑st' : Multiset (Nat × G)) + ↑outs' = ↑(insertedTerms pre) := by
    intro pre st' outs' hp
    obtain ⟨hH, hms⟩ := runHeapOpsFrom_spec pre [] [] st' outs'
      (by intro j hj _; simp at hj) hp
    refine ⟨hH, ?_⟩
    rw [hms]
    simp
  constructor
  · intro pre suf st' outs' _ hp
    exact hbase pre st' outs' hp
  · intro pre suf st' outs' t st'' _ hp hrem
    have hH := (hbase pre st' outs' hp).1
    have hout := heap_remove_out st' t st'' hrem
    intro u hu
    rw [hout]
    exact isMaxHeap_mem_le_root st' hH u hu

theorem claim_C4_witness :
    runHeapOps [HeapOp.ins 3 (1 : Nat), HeapOp.ins 5 2, HeapOp.rem] =
      some ([(3, 1)], [(5, 2)]) ∧
    ∀ u ∈ [((5 : Nat), (2 : Nat)), (3, 1)], u.1 ≤ ((5 : Nat), (2 : Nat)).1 := by
  have hcap : ∀ pre suf (st' outs' : List (Nat × Nat)),
      [HeapOp.ins 3 (1 : Nat), HeapOp.ins 5 2, HeapOp.rem] = pre ++ suf →
      runHeapOps pre = some (st', outs') → st'.length ≤ 32 := by
    intro pre suf st' outs' happx hrunx
    have hlenx : pre.length ≤ 3 := by
      have := congrArg List.length happx
      simp only [List.length_append, List.length_cons, List.length_nil] at this
      omega
    have := runHeapOpsFrom_length pre [] [] st' outs' hrunx
    simp only [List.length_nil, Nat.zero_add] at this
    omega
  have happ := claim_C4 [HeapOp.ins 3 (1 : Nat), HeapOp.ins 5 2, HeapOp.rem]
    [(3, 1)] [(5, 2)] hcap (by decide)
  refine ⟨by decide, ?_⟩
  exact happ.2 [HeapOp.ins 3 (1 : Nat), HeapOp.ins 5 2] [] [(5, 2), (3, 1)] []
    (5, 2) [(3, 1)] rfl (by decide) (by decide)

/-- Claim C5: with n ≤ 32 every internal assertion holds: both heap
removals per iteration act on a non-empty heap, the loop exits with exactly
one term whose scalar is non-zero, and the whole function never hits an
assertion failure (`none`). -/
theorem claim_C5 (N : Nat) (sc : List Nat) (pt : List G)
    (hn : sc.length = pt.length) (hcap : sc.length ≤ 32)
    (hsc : ∀ s ∈ sc, s < N) :
    (∀ h : List (Nat × G), HeapOK N h → 2 ≤ h.length →
      h ≠ [] ∧ ∃ t1 h1, secp256k1_heap_remove h = some (t1, h1) ∧ h1 ≠ [] ∧
        ∃ t2 h2m, secp256k1_heap_remove h1 = some (t2, h2m)) ∧
    (buildHeap (sc.zip pt) ≠ [] →
      ∃ h'', ecmultLoop N (ssum (buildHeap (sc.zip pt)) + 1)
          (buildHeap (sc.zip pt)) = some h'' ∧
        h''.length = 1 ∧ (aget h'' 0).1 ≠ 0) ∧
    secp256k1_ecmult_multi N sc pt ≠ none := by
  refine ⟨?_, ?_, ?_⟩
  · intro h hOK hlen
    obtain ⟨h1, h2, h', e1, e2, _, _, _, _, _, _, _, _, _⟩ :=
      ecmultStep_spec N h hOK hlen
    have hlen1 : h1.length = h.length - 1 := length_heap_remove h _ h1 e1
    refine ⟨?_, aget h 0, h1, e1, ?_, aget h1 0, h2, e2⟩
    · intro h0; rw [h0] at hlen; simp at hlen
    · apply List.length_pos.mp
      omega
  · intro hne
    obtain ⟨h'', e'', hOK'', hlen'', _⟩ := ecmultLoop_spec N
      (ssum (buildHeap (sc.zip pt)) + 1) (buildHeap (sc.zip pt))
      (buildHeap_HeapOK N sc pt hsc)
      (by have := List.length_pos.mpr hne; omega) (by omega)
    refine ⟨h'', e'', hlen'', ?_⟩
    have hmem : aget h'' 0 ∈ h'' := aget_mem h'' 0 (by omega)
    have := hOK''.2 _ hmem
    omega
  · rw [ecmult_multi_spec N sc pt hcap hsc]
    simp

theorem claim_C5_witness :
    ([((5 : Nat), (3 : Nat)), (3, 2)] ≠ ([] : List (Nat × Nat)) ∧
      ∃ t1 h1, secp256k1_heap_remove [((5 : Nat), (3 : Nat)), (3, 2)] = some (t1, h1) ∧
        h1 ≠ [] ∧ ∃ t2 h2m, secp256k1_heap_remove h1 = some (t2, h2m)) ∧
    secp256k1_ecmult_multi 7 [3, 5] [(2 : Nat), 3] ≠ none :=
  ⟨(claim_C5 7 [3, 5] [2, 3] (by decide) (by decide) (by decide)).1
      [((5 : Nat), (3 : Nat)), (3, 2)] (by decide) (by decide),
    (claim_C5 7 [3, 5] [2, 3] (by decide) (by decide) (by decide)).2.2⟩

/-- Claim C6: in every reduction iteration the first extracted scalar is at
least the second; when they differ it is strictly greater, and the
`m + (-m') mod N` computation equals the exact integer difference `m - m'`,
which is non-zero and strictly less than `m` — no modular wraparound. -/
theorem claim_C6 (N : Nat) (h h1 h2m : List (Nat × G)) (hOK : HeapOK N h)
    (hlen : 2 ≤ h.length)
    (e1 : secp256k1_heap_remove h = some (aget h 0, h1))
    (e2 : secp256k1_heap_remove h1 = some (aget h1 0, h2m)) :
    (aget h1 0).1 ≤ (aget h 0).1 ∧
    ((aget h 0).1 ≠ (aget h1 0).1 →
      (aget h1 0).1 < (aget h 0).1 ∧
      secp256k1_scalar_add N (aget h 0).1
          (secp256k1_scalar_negate N (aget h1 0).1) =
        (aget h 0).1 - (aget h1 0).1 ∧
      (aget h 0).1 - (aget h1 0).1 ≠ 0 ∧
      (aget h 0).1 - (aget h1 0).1 < (aget h 0).1) := by
  obtain ⟨h1x, h2x, h'0, e1x, e2x, _, _, _, _, _, _, hle, _, hne⟩ :=
    ecmultStep_spec N h hOK hlen
  rw [e1x] at e1
  simp only [Option.some.injEq, Prod.mk.injEq, true_and] at e1
  subst e1
  refine ⟨hle, ?_⟩
  intro hs
  obtain ⟨ha, hb, hc, hd, _, _⟩ := hne hs
  exact ⟨ha, hb, by omega, hd⟩

theorem claim_C6_witness :
    HeapOK 7 [((5 : Nat), (3 : Nat)), (3, 2)] ∧
    secp256k1_scalar_add 7 (aget [((5 : Nat), (3 : Nat)), (3, 2)] 0).1
        (secp256k1_scalar_negate 7 (aget [((3 : Nat), (2 : Nat))] 0).1) =
      (aget [((5 : Nat), (3 : Nat)), (3, 2)] 0).1 - (aget [((3 : Nat), (2 : Nat))] 0).1 :=
  ⟨by decide,
    ((claim_C6 7 [((5 : Nat), (3 : Nat)), (3, 2)] [(3, 2)] []
      (by decide) (by decide) (by decide) (by decide)).2 (by decide)).2.1⟩

/-- Claim C7 (amended): the finishing pass starts from `r = infinity` and,
when the remaining point is infinity, is skipped entirely (the guarded
expression of lines 115-124, as embedded in `secp256k1_ecmult_multi`,
returns infinity without entering the ladder); otherwise each iteration
extracts the low bit of `s` by a shift-right-by-one, adds the point into
`r` when the bit is one, and doubles the point on EVERY iteration —
including the final one after `s` has become zero, so the number of
doublings is the bit-length `Nat.size s` (not one less); when the group
has no 2-torsion and the point is not infinity, no doubling is ever
applied to infinity. -/
theorem claim_C7 (fuel s : Nat) (p r : G) (hfuel : s ≤ fuel)
    (htor : ∀ x : G, x ≠ 0 → x + x ≠ 0) :
    (secp256k1_gej_is_infinity p = true →
      (if secp256k1_gej_is_infinity p then (secp256k1_gej_set_infinity : G)
       else ecmultLadder fuel s p secp256k1_gej_set_infinity) =
        secp256k1_gej_set_infinity) ∧
    (ecmultLadderTrace fuel s p r []).1 = ecmultLadder fuel s p r ∧
    ecmultLadder fuel s p r = r + s • p ∧
    (ecmultLadderTrace fuel s p r []).2.length = Nat.size s ∧
    (p ≠ 0 → ∀ q ∈ (ecmultLadderTrace fuel s p r []).2, q ≠ 0) := by
  refine ⟨?_, ecmultLadderTrace_fst fuel s p r [],
    ecmultLadder_spec fuel s p r hfuel, ?_, ?_⟩
  · intro hinf
    rw [if_pos hinf]
  · rw [ecmultLadderTrace_len fuel s p r [] hfuel]
    simp
  · intro hp
    exact ecmultLadderTrace_doubles_nonzero htor fuel s p r [] hp
      (by intro q hq; simp at hq)

/-- Claim C7 counterexample: the claim says the doubling is skipped on the
final iteration once `s` becomes zero, i.e. the ladder on a one-bit scalar
would perform `Nat.size 1 - 1 = 0` doublings; the code performs one. -/
theorem claim_C7_counterexample :
    ¬ ((ecmultLadderTrace 1 1 (1 : Nat) 0 []).2.length = Nat.size 1 - 1) := by
  intro hcl
  have h1 : (ecmultLadderTrace 1 1 (1 : Nat) 0 []).2.length = 1 := by decide
  rw [h1, Nat.size_one] at hcl
  simp at hcl

theorem claim_C7_witness :
    (2 : Nat) ≤ 2 ∧
    ((secp256k1_gej_is_infinity (1 : Nat) = true →
        (if secp256k1_gej_is_infinity (1 : Nat) then (secp256k1_gej_set_infinity : Nat)
         else ecmultLadder 2 2 (1 : Nat) secp256k1_gej_set_infinity) =
          secp256k1_gej_set_infinity) ∧
      (ecmultLadderTrace 2 2 (1 : Nat) 0 []).1 = ecmultLadder 2 2 (1 : Nat) 0 ∧
      ecmultLadder 2 2 (1 : Nat) 0 = 0 + 2 • (1 : Nat) ∧
      (ecmultLadderTrace 2 2 (1 : Nat) 0 []).2.length = Nat.size 2 ∧
      ((1 : Nat) ≠ 0 → ∀ q ∈ (ecmultLadderTrace 2 2 (1 : Nat) 0 []).2, q ≠ 0)) :=
  ⟨by decide, claim_C7 2 2 1 0 (by decide) (fun x hx => by omega)⟩

/-- Claim C8: the function's only precondition is `n ≤ 32`
(`SECP256K1_ECMULT_MULTI_MAX_N`) and there is no error-return channel: a
call with 32 valid terms returns the exact sum, while a call with 33 terms
fails the entry assertion (modelled as `none`) instead of returning an
error value. -/
theorem claim_C8 (N : Nat) :
    (∀ (sc : List Nat) (pt : List G), sc.length = pt.length →
      sc.length = 32 → (∀ s ∈ sc, s < N) →
      secp256k1_ecmult_multi N sc pt = some (wsum (sc.zip pt))) ∧
    (∀ (sc : List Nat) (pt : List G), sc.length = 33 →
      secp256k1_ecmult_multi N sc pt = none) := by
  constructor
  · intro sc pt _ h32 hsc
    exact ecmult_multi_spec N sc pt (by omega) hsc
  · intro sc pt h33
    unfold secp256k1_ecmult_multi
    rw [if_neg (by rw [h33]; simp [SECP256K1_ECMULT_MULTI_MAX_N])]

theorem claim_C8_witness :
    secp256k1_ecmult_multi 2 (List.replicate 32 1) (List.replicate 32 (1 : Nat)) =
      some (wsum ((List.replicate 32 1).zip (List.replicate 32 (1 : Nat)))) ∧
    secp256k1_ecmult_multi 2 (List.replicate 33 1) (List.replicate 33 (1 : Nat)) =
      none :=
  ⟨(claim_C8 2).1 (List.replicate 32 1) (List.replicate 32 1)
      (by decide) (by decide) (by decide),
    (claim_C8 2).2 (List.replicate 33 1) (List.replicate 33 1) (by decide)⟩

/-- Claim C9: if n = 0 or every scalar is zero, the function sets the
result to the point at infinity (the filter inserts nothing, so the heap is
empty and the reduction loop never runs). -/
theorem claim_C9 (N : Nat) (sc : List Nat) (pt : List G)
    (hcap : sc.length ≤ 32)
    (hz : sc = [] ∨ ∀ s ∈ sc, s = 0) :
    secp256k1_ecmult_multi N sc pt = some (secp256k1_gej_set_infinity : G) ∧
    buildHeap (sc.zip pt) = [] := by
  have hall : ∀ t ∈ sc.zip pt, t.1 = 0 := by
    intro t ht
    rcases hz with h0 | h0
    · rw [h0] at ht; simp at ht
    · have hmk : (t.1, t.2) ∈ sc.zip pt := by rw [Prod.mk.eta]; exact ht
      exact h0 t.1 (List.of_mem_zip hmk).1
  have hB := buildHeap_all_zero (sc.zip pt) hall
  refine ⟨?_, hB⟩
  unfold secp256k1_ecmult_multi
  rw [if_pos (by simpa [SECP256K1_ECMULT_MULTI_MAX_N] using hcap),
    if_pos (by rw [hB]; rfl)]

theorem claim_C9_witness :
    secp256k1_ecmult_multi 5 [0, 0] [(1 : Nat), 2] =
      some secp256k1_gej_set_infinity ∧
    buildHeap ([0, 0].zip [(1 : Nat), 2]) = [] :=
  claim_C9 5 [0, 0] [1, 2] (by decide) (Or.inr (by decide))

/-- Claim C10: with n ≤ 32 the heap never outgrows the 32-entry backing
arrays: the filter inserts at most n terms, every iteration-boundary state
has at most 32 terms, within an iteration the two removals come before the
(at most two) insertions so every insertion acts on a heap of at most 31
terms, and every insertion grows the heap by exactly one slot. -/
theorem claim_C10 (N : Nat) (sc : List Nat) (pt : List G)
    (hn : sc.length = pt.length) (hcap : sc.length ≤ 32)
    (hsc : ∀ s ∈ sc, s < N) :
    (∀ terms : List (Nat × G), (buildHeap terms).length ≤ terms.length) ∧
    (∀ (k : Nat) (h' : List (Nat × G)),
      ecmultIter N k (buildHeap (sc.zip pt)) = some h' → h'.length ≤ 32) ∧
    (∀ (h h1 h2m : List (Nat × G)) (t1 t2 : Nat × G), HeapOK N h →
      2 ≤ h.length → h.length ≤ 32 →
      secp256k1_heap_remove h = some (t1, h1) →
      secp256k1_heap_remove h1 = some (t2, h2m) →
      h2m.length + 2 = h.length ∧
      (secp256k1_heap_insert h2m t2.1 (secp256k1_gej_add_var t1.2 t2.2)).length ≤ 31 ∧
      ∀ d : Nat,
        (secp256k1_heap_insert (secp256k1_heap_insert h2m t2.1
          (secp256k1_gej_add_var t1.2 t2.2)) d t1.2).length ≤ 32) ∧
    (∀ (a : List (Nat × G)) (s : Nat) (p : G),
      (secp256k1_heap_insert a s p).length = a.length + 1) := by
  refine ⟨?_, ?_, ?_, ?_⟩
  · intro terms
    exact (buildHeap_spec terms).2.2.1
  · intro k h' he
    obtain ⟨_, _, hlen⟩ := ecmultIter_spec N k _ h' (buildHeap_HeapOK N sc pt hsc) he
    have hbl := (buildHeap_spec (sc.zip pt)).2.2.1
    have hzl : (sc.zip pt).length ≤ sc.length := by
      rw [List.length_zip]
      exact min_le_left _ _
    omega
  · intro h h1 h2m t1 t2 _ hlen2 hlen32 e1 e2
    have l1 := length_heap_remove h t1 h1 e1
    have l2 := length_heap_remove h1 t2 h2m e2
    have li1 := length_heap_insert h2m t2.1 (secp256k1_gej_add_var t1.2 t2.2)
    refine ⟨by omega, by omega, ?_⟩
    intro d
    rw [length_heap_insert, li1]
    omega
  · intro a s p
    exact length_heap_insert a s p

theorem claim_C10_witness :
    (buildHeap [((3 : Nat), (1 : Nat))]).length ≤ 1 ∧
    (secp256k1_heap_insert [((3 : Nat), (1 : Nat))] 2 5).length = 2 :=
  ⟨(claim_C10 7 [3, 5] [(2 : Nat), 3] (by decide) (by decide) (by decide)).1
      [((3 : Nat), (1 : Nat))],
    by
      have := (claim_C10 7 [3, 5] [(2 : Nat), 3] (by decide) (by decide)
        (by decide)).2.2.2 [((3 : Nat), (1 : Nat))] 2 5
      simpa using this⟩

end EcmultMulti
